import Mathlib

/-!
Verification of the ftcrag answering pipeline.

This file gives a shallow embedding, in Lean, of the pure core of the
repository's answering pipeline and proves (or refutes) the specified
properties about it:

* the embedding normalizer (`normalizeEmbedding` in `src/lib/rag.ts`
  — shipped here as `src/unnamed/part_001` — and its copy in
  `src/scripts/ingest-docs.mjs`),
* the document chunker (`buildChunks`, same two files),
* retrieval-result deduplication (`dedupeChunks` in the route handler,
  `src/unnamed/part_002`),
* planner/final-model JSON parsing (`parsePlannerOutput`,
  `parseFinalModelOutput`, `extractAnswerFallbackText` in the route
  handler, `extractJsonObject` in `src/lib/gemini.ts`),
* the `MAX_TOKENS` truncation retry and the retrieval `Promise.all`
  degradation step of the route handler's `POST`,
* source-fragment construction (`getSourceFragmentsByNumber`),
* the streaming encoder (`splitForStream` plus the trailing metadata
  marker) and the client decoder (`parseAssistantPayload` in
  `src/components/ChatInterface.tsx`).

Modelling conventions:

* text is modelled as `List Char` (JavaScript strings at the scalar
  level; UTF-16 surrogate-pair details are out of scope),
* JavaScript numbers are modelled as exact decimals (`JNum`, a mantissa
  together with a power-of-ten scale): every number literal the pipeline
  actually handles is an exact decimal, and embedding vector entries are
  modelled as exact rationals,
* `JSON.parse` and `JSON.stringify` are platform builtins; they are
  modelled by an executable JSON parser/printer over the `Json` value
  type below, restricted to the JSON grammar,
* fallible steps return `Option`/`Except`; JavaScript `while` loops are
  modelled with an explicit fuel argument that provably dominates the
  loop's iteration count on the inputs of interest.
-/

/-! ## Generic JavaScript text helpers -/

/-- Whitespace test backing the model of `String.prototype.trim`
(space, tab, newline, carriage return, vertical tab, form feed). -/
def jsWhitespaceChar (c : Char) : Bool :=
  c = ' ' || c = '\t' || c = '\n' || c = '\r' || c = '\x0b' || c = '\x0c'

/-- Model of `text.replace(/\r\n/g, "\n")`: global, left-to-right,
non-overlapping replacement of CRLF pairs by a newline. -/
def replaceCRLF : List Char → List Char
  | [] => []
  | '\r' :: '\n' :: rest => '\n' :: replaceCRLF rest
  | c :: rest => c :: replaceCRLF rest

/-- Model of `String.prototype.trim`. -/
def jsTrim (cs : List Char) : List Char :=
  ((cs.dropWhile jsWhitespaceChar).reverse.dropWhile jsWhitespaceChar).reverse

/-- `jsTrim` lifted to `String`. -/
def jsTrimStr (s : String) : String :=
  String.mk (jsTrim s.data)

/-! ## Embedding normalizer

`normalizeEmbedding` from `src/unnamed/part_001` lines 43–67 (the RAG
library used at query time) and its copy in
`src/scripts/ingest-docs.mjs` lines 109–134 (used at ingestion time).
`targetDim` models the configured `EMBEDDING_TARGET_DIMENSIONS`; vector
entries are exact rationals.  The bucket-mean loop reads
`embedding[i * ratio + j]`, which is always in bounds in that branch;
the model uses `getD` with default `0` for the (unreachable)
out-of-bounds case. -/

/-- Query-time embedding normalizer (`src/unnamed/part_001`,
`normalizeEmbedding`). -/
def normalizeEmbedding (targetDim : Nat) (embedding : List ℚ) : List ℚ :=
  let sourceDim := embedding.length
  if sourceDim = targetDim then embedding
  else if targetDim < sourceDim ∧ sourceDim % targetDim = 0 then
    let k := sourceDim / targetDim
    (List.range targetDim).map (fun i =>
      ((List.range k).map (fun j => embedding.getD (i * k + j) 0)).sum / (k : ℚ))
  else if targetDim < sourceDim then
    embedding.take targetDim
  else
    embedding ++ List.replicate (targetDim - embedding.length) 0

/-- Ingestion-time embedding normalizer (`src/scripts/ingest-docs.mjs`,
`normalizeEmbedding`), embedded separately from its own source text. -/
def ingest_normalizeEmbedding (targetDim : Nat) (embedding : List ℚ) : List ℚ :=
  let sourceDim := embedding.length
  if sourceDim = targetDim then embedding
  else if targetDim < sourceDim ∧ sourceDim % targetDim = 0 then
    let k := sourceDim / targetDim
    (List.range targetDim).map (fun i =>
      ((List.range k).map (fun j => embedding.getD (i * k + j) 0)).sum / (k : ℚ))
  else if targetDim < sourceDim then
    embedding.take targetDim
  else
    embedding ++ List.replicate (targetDim - embedding.length) 0

/-! ## Document chunker

`buildChunks` from `src/unnamed/part_001` lines 69–82 (and its copy in
`src/scripts/ingest-docs.mjs` lines 94–107, where size and overlap come
from configuration).  The `while` loop is modelled with a fuel
argument; fuel `cleaned.length` dominates the iteration count because
each iteration advances `start` by `chunkSize - overlap ≥ 1` on the
inputs the claims quantify over (`overlap < chunkSize`). -/

/-- One step of the chunking walk: emit `cleaned.slice(start, end)` with
`end = min (start + chunkSize) cleaned.length`, stop if `end` reached the
text length, else continue from `end - overlap`. -/
def buildChunksGo (cleaned : List Char) (chunkSize overlap : Nat) :
    Nat → Nat → List (List Char)
  | 0, _ => []
  | fuel + 1, start =>
    if start < cleaned.length then
      let e := min (start + chunkSize) cleaned.length
      let chunk := (cleaned.drop start).take (e - start)
      if cleaned.length ≤ e then [chunk]
      else chunk :: buildChunksGo cleaned chunkSize overlap fuel (e - overlap)
    else []

/-- Chunker from `src/unnamed/part_001` (`buildChunks`): normalize line
endings, trim, return `[]` on empty text, else walk the window. -/
def buildChunks (text : List Char) (chunkSize overlap : Nat) : List (List Char) :=
  let cleaned := jsTrim (replaceCRLF text)
  if cleaned.isEmpty then []
  else buildChunksGo cleaned chunkSize overlap cleaned.length 0

/-- Chunker from `src/scripts/ingest-docs.mjs` (`buildChunks`), embedded
separately from its own source text. -/
def ingest_buildChunks (text : List Char) (chunkSize overlap : Nat) : List (List Char) :=
  let cleaned := jsTrim (replaceCRLF text)
  if cleaned.isEmpty then []
  else buildChunksGo cleaned chunkSize overlap cleaned.length 0

/-! ## JavaScript numbers and JSON values

JavaScript numbers reaching the pipeline through `JSON.parse` are
modelled as exact decimals: a mantissa `mant` with value
`mant / 10 ^ scale`.  (The runtime uses binary floating point; every
number the pipeline actually branches on is a small integer, where the
two semantics agree exactly.) -/

/-- An exact decimal: value `mant / 10 ^ scale`. -/
structure JNum where
  mant : Int
  scale : Nat
deriving DecidableEq, Repr

/-- Model of `Number.isInteger` on an exact decimal. -/
def jnIsInteger (n : JNum) : Bool := n.mant % ((10 : Int) ^ n.scale) = 0

/-- Value positivity (`n > 0`). -/
def jnPos (n : JNum) : Bool := decide (0 < n.mant)

/-- Value comparison with a natural number (`n ≤ k`). -/
def jnLeNat (n : JNum) (k : Nat) : Bool := decide (n.mant ≤ (k : Int) * (10 : Int) ^ n.scale)

/-- Value equality of two decimals (JavaScript `===` / SameValueZero
on numbers). -/
def jnValEq (a b : JNum) : Bool :=
  decide (a.mant * (10 : Int) ^ b.scale = b.mant * (10 : Int) ^ a.scale)

/-- Value order on two decimals (backs the `(a, b) => a - b` sort
comparator). -/
def jnValLe (a b : JNum) : Bool :=
  decide (a.mant * (10 : Int) ^ b.scale ≤ b.mant * (10 : Int) ^ a.scale)

/-- Strict value order on two decimals. -/
def jnValLt (a b : JNum) : Bool :=
  decide (a.mant * (10 : Int) ^ b.scale < b.mant * (10 : Int) ^ a.scale)

/-- Integer value of an integral decimal. -/
def jnIntVal (n : JNum) : Int := n.mant / (10 : Int) ^ n.scale

/-- Strip trailing zero decimals (canonical decimal form). -/
def jnCanonGo : Int → Nat → JNum
  | m, 0 => ⟨m, 0⟩
  | m, s + 1 => if m % 10 = 0 then jnCanonGo (m / 10) s else ⟨m, s + 1⟩

/-- Zero-pad a digit string on the left to width `w`. -/
def padZeros (s : String) (w : Nat) : String :=
  String.mk (List.replicate (w - s.length) '0') ++ s

/-- Model of JavaScript `String(number)` for decimal-representable
numbers (extreme magnitudes that JavaScript would print in exponent
form are out of scope). -/
def jnToString (n : JNum) : String :=
  let c := jnCanonGo n.mant n.scale
  if c.scale = 0 then toString c.mant
  else
    let a := c.mant.natAbs
    (if c.mant < 0 then "-" else "")
      ++ toString (a / 10 ^ c.scale) ++ "."
      ++ padZeros (toString (a % 10 ^ c.scale)) c.scale

/-- JSON value produced by the model of `JSON.parse`. -/
inductive Json where
  | null
  | bool (b : Bool)
  | num (n : JNum)
  | str (s : String)
  | arr (elems : List Json)
  | obj (members : List (String × Json))
deriving Repr

/-- JSON whitespace (the four characters the JSON grammar allows). -/
def isJsonWs (c : Char) : Bool := c = ' ' || c = '\t' || c = '\n' || c = '\r'

/-- Skip JSON whitespace. -/
def skipWs (cs : List Char) : List Char := cs.dropWhile isJsonWs

/-- Hex digit value, for `\u` escapes. -/
def hexVal (c : Char) : Option Nat :=
  if '0' ≤ c ∧ c ≤ '9' then some (c.toNat - 48)
  else if 'a' ≤ c ∧ c ≤ 'f' then some (c.toNat - 87)
  else if 'A' ≤ c ∧ c ≤ 'F' then some (c.toNat - 55)
  else none

/-- Parse the body of a JSON string literal (after the opening quote),
returning the decoded characters and the remaining input.  Raw control
characters are rejected and escape sequences are decoded, per the JSON
grammar; `\u` escapes denoting surrogate halves are rejected (the model
works at the Unicode scalar level). -/
def parseStringBody : List Char → Option (List Char × List Char)
  | [] => none
  | c :: rest =>
    if c = '"' then some ([], rest)
    else if c = '\\' then
      match rest with
      | [] => none
      | e :: rest2 =>
        if e = 'n' then (parseStringBody rest2).map (fun p => ('\n' :: p.1, p.2))
        else if e = 't' then (parseStringBody rest2).map (fun p => ('\t' :: p.1, p.2))
        else if e = 'r' then (parseStringBody rest2).map (fun p => ('\r' :: p.1, p.2))
        else if e = 'b' then (parseStringBody rest2).map (fun p => ('\x08' :: p.1, p.2))
        else if e = 'f' then (parseStringBody rest2).map (fun p => ('\x0c' :: p.1, p.2))
        else if e = '"' then (parseStringBody rest2).map (fun p => ('"' :: p.1, p.2))
        else if e = '\\' then (parseStringBody rest2).map (fun p => ('\\' :: p.1, p.2))
        else if e = '/' then (parseStringBody rest2).map (fun p => ('/' :: p.1, p.2))
        else if e = 'u' then
          match rest2 with
          | h1 :: h2 :: h3 :: h4 :: rest3 =>
            match hexVal h1, hexVal h2, hexVal h3, hexVal h4 with
            | some a, some b, some c, some d =>
              let n := ((a * 16 + b) * 16 + c) * 16 + d
              if n.isValidChar then
                (parseStringBody rest3).map (fun p => (Char.ofNat n :: p.1, p.2))
              else none
            | _, _, _, _ => none
          | _ => none
        else none
    else if c.toNat < 0x20 then none
    else (parseStringBody rest).map (fun p => (c :: p.1, p.2))

/-- Digit-string value. -/
def digitsToNat (ds : List Char) : Nat := ds.foldl (fun a c => a * 10 + (c.toNat - 48)) 0

/-- Parse a JSON number (integer part, optional fraction, optional
exponent) into an exact decimal.  Lenient on redundant leading zeros,
otherwise the JSON grammar. -/
def parseNumTail (cs : List Char) : Option (JNum × List Char) :=
  let (neg, cs1) : Bool × List Char :=
    match cs with
    | '-' :: r => (true, r)
    | _ => (false, cs)
  let ds := cs1.takeWhile Char.isDigit
  if ds.isEmpty then none
  else
    let rest0 := cs1.drop ds.length
    let (m0, s0, rest1) : Nat × Nat × List Char :=
      match rest0 with
      | '.' :: r =>
        let fs := r.takeWhile Char.isDigit
        if fs.isEmpty then (digitsToNat ds, 0, rest0)
        else (digitsToNat ds * 10 ^ fs.length + digitsToNat fs, fs.length, r.drop fs.length)
      | _ => (digitsToNat ds, 0, rest0)
    let expPart : Option (Bool × Nat × List Char) :=
      match rest1 with
      | 'e' :: r | 'E' :: r =>
        let (eneg, r1) : Bool × List Char :=
          match r with
          | '-' :: r2 => (true, r2)
          | '+' :: r2 => (false, r2)
          | _ => (false, r)
        let es := r1.takeWhile Char.isDigit
        if es.isEmpty then none
        else some (eneg, digitsToNat es, r1.drop es.length)
      | _ => some (false, 0, rest1)
    match expPart with
    | none => none
    | some (eneg, e, rest2) =>
      let (m1, s1) : Nat × Nat :=
        if eneg then (m0, s0 + e)
        else if e ≤ s0 then (m0, s0 - e)
        else (m0 * 10 ^ (e - s0), 0)
      some (⟨if neg then -(m1 : Int) else (m1 : Int), s1⟩, rest2)

/-- Parse a comma-separated JSON array tail (after `[` and at least one
element), given a parser for single values. -/
def parseCommaSep (pv : List Char → Option (Json × List Char)) :
    Nat → List Char → Option (List Json × List Char)
  | 0, _ => none
  | fuel + 1, cs => do
    let (v, r) ← pv (skipWs cs)
    match skipWs r with
    | ',' :: r2 => (parseCommaSep pv fuel r2).map (fun p => (v :: p.1, p.2))
    | ']' :: r2 => some ([v], r2)
    | _ => none

/-- Parse a comma-separated JSON object member tail, given a parser for
single values. -/
def parseMembersSep (pv : List Char → Option (Json × List Char)) :
    Nat → List Char → Option (List (String × Json) × List Char)
  | 0, _ => none
  | fuel + 1, cs =>
    match skipWs cs with
    | '"' :: r => do
      let (k, r1) ← parseStringBody r
      match skipWs r1 with
      | ':' :: r2 => do
        let (v, r3) ← pv (skipWs r2)
        match skipWs r3 with
        | ',' :: r4 =>
          (parseMembersSep pv fuel r4).map (fun p => ((String.mk k, v) :: p.1, p.2))
        | '\x7d' :: r4 => some ([(String.mk k, v)], r4)
        | _ => none
      | _ => none
    | _ => none

/-- Parse one JSON value.  The fuel bounds nesting and element counts;
the top-level entry point supplies fuel dominating any value the input
can denote. -/
def parseValue : Nat → List Char → Option (Json × List Char)
  | 0, _ => none
  | fuel + 1, cs =>
    match skipWs cs with
    | 'n' :: 'u' :: 'l' :: 'l' :: r => some (.null, r)
    | 't' :: 'r' :: 'u' :: 'e' :: r => some (.bool true, r)
    | 'f' :: 'a' :: 'l' :: 's' :: 'e' :: r => some (.bool false, r)
    | '"' :: r => (parseStringBody r).map (fun p => (.str (String.mk p.1), p.2))
    | '[' :: r =>
      (match skipWs r with
      | ']' :: r1 => some (.arr [], r1)
      | _ => (parseCommaSep (parseValue fuel) fuel r).map (fun p => (.arr p.1, p.2)))
    | '\x7b' :: r =>
      (match skipWs r with
      | '\x7d' :: r1 => some (.obj [], r1)
      | _ => (parseMembersSep (parseValue fuel) fuel r).map (fun p => (.obj p.1, p.2)))
    | c :: r =>
      if c = '-' || c.isDigit then (parseNumTail (c :: r)).map (fun p => (.num p.1, p.2))
      else none
    | [] => none

/-- Model of `JSON.parse`: parse one value and require only whitespace
after it; `none` models a thrown `SyntaxError`. -/
def jsonParse (s : String) : Option Json :=
  match parseValue (s.length + 1) s.data with
  | some (v, rest) => if (skipWs rest).isEmpty then some v else none
  | none => none

/-- Property lookup on a parsed JSON object: `JSON.parse` keeps the
last of duplicate keys, hence the reversed lookup. -/
def jsObjGet (ms : List (String × Json)) (k : String) : Option Json :=
  ms.reverse.lookup k

/-- Property access `j[k]` on an arbitrary parsed value: `undefined`
(here `none`) on non-objects. -/
def jsGet (j : Json) (k : String) : Option Json :=
  match j with
  | .obj ms => jsObjGet ms k
  | _ => none

/-! ## Substring search helpers (String.prototype.indexOf and friends) -/

/-- First index at which `pat` occurs in the list (model of
`indexOf`). -/
def findSubIdx (pat : List Char) : List Char → Option Nat
  | [] => if pat.isEmpty then some 0 else none
  | c :: t =>
    if List.isPrefixOf pat (c :: t) then some 0
    else (findSubIdx pat t).map (· + 1)

/-- Case-insensitive prefix test (`pat` given in lowercase). -/
def ciStartsWith (pat : List Char) (cs : List Char) : Bool :=
  List.isPrefixOf pat ((cs.take pat.length).map Char.toLower)

/-- First index at which `pat` occurs case-insensitively. -/
def findCIIdx (pat : List Char) : List Char → Option Nat
  | [] => if pat.isEmpty then some 0 else none
  | c :: t =>
    if ciStartsWith pat (c :: t) then some 0
    else (findCIIdx pat t).map (· + 1)

/-- Last index of a single character (model of `lastIndexOf`). -/
def lastIndexOfChar (c : Char) (cs : List Char) : Option Nat :=
  match findSubIdx [c] cs.reverse with
  | some i => some (cs.length - 1 - i)
  | none => none

/-! ## extractJsonObject (src/lib/gemini.ts, lines 190–198) -/

/-- The `first "\x7b" … last "\x7d"` span heuristic of
`extractJsonObject`. -/
def extractBraceSpan (text : List Char) : Option (List Char) :=
  match findSubIdx ['\x7b'] text, lastIndexOfChar '\x7d' text with
  | some s, some e => if s < e then some ((text.drop s).take (e + 1 - s)) else none
  | _, _ => none

/-- Model of `extractJsonObject`: a case-insensitive fenced
` ```json … ``` ` block is preferred (the lazy capture stops at the
first closing fence, and the surrounding `\s*` strip the capture); an
empty capture is falsy in JavaScript and falls through to the brace
heuristic. -/
def extractJsonObject (text : List Char) : Option (List Char) :=
  let fenced : Option (List Char) :=
    match findCIIdx "```json".data text with
    | some i =>
      let rest := text.drop (i + 7)
      match findSubIdx "```".data rest with
      | some j => some (jsTrim (rest.take j))
      | none => none
    | none => none
  match fenced with
  | some cap => if cap.isEmpty then extractBraceSpan text else some cap
  | none => extractBraceSpan text

/-! ## Planner output parsing (src/unnamed/part_002, lines 36–81) -/

/-- The plan record returned by `parsePlannerOutput`. -/
structure PlannerOutput where
  needsCode : Bool
  isHard : Bool
  needsConversationContext : Bool
  ragQueries : List String
  shouldShortCircuit : Bool
  directResponse : String
deriving DecidableEq, Repr

/-- The conservative default plan the route falls back to. -/
def conservativePlan (fallbackQuestion : String) : PlannerOutput :=
  ⟨true, true, true, [fallbackQuestion], false, ""⟩

/-- The per-field filter applied to `ragQueries` entries: keep strings
whose trim is nonempty. -/
def ragQueryFilter (qs : List Json) : List String :=
  qs.filterMap (fun q =>
    match q with
    | Json.str s => if 0 < (jsTrim s.data).length then some s else none
    | _ => none)

/-- The field-by-field coercion inside `parsePlannerOutput`'s `try`
block (the body run on a successfully parsed value). -/
def plannerCoerce (parsed : Json) (fallbackQuestion : String) : PlannerOutput :=
  let ragQueries : List String :=
    match jsGet parsed "ragQueries" with
    | some (Json.arr qs) => ragQueryFilter qs
    | _ => []
  let needsCode : Bool :=
    match jsGet parsed "needsCode" with
    | some (Json.bool b) => b
    | _ => true
  let isHard : Bool :=
    match jsGet parsed "isHard" with
    | some (Json.bool b) => b
    | _ => true
  let needsConversationContext : Bool :=
    match jsGet parsed "needsConversationContext" with
    | some (Json.bool b) => b
    | _ => true
  let shouldShortCircuit : Bool :=
    match jsGet parsed "shouldShortCircuit" with
    | some (Json.bool b) => b
    | _ => false
  let directResponse : String :=
    match jsGet parsed "directResponse" with
    | some (Json.str s) => jsTrimStr s
    | _ => ""
  ⟨needsCode, isHard, needsConversationContext,
    if ragQueries.isEmpty then [fallbackQuestion] else ragQueries,
    shouldShortCircuit, directResponse⟩

/-- Model of `parsePlannerOutput`.  `JSON.parse` returning `null` makes
the subsequent property accesses throw, which the `catch` turns into
the full default plan; every other parsed value is read field by field
with per-field type checks. -/
def parsePlannerOutput (raw : List Char) (fallbackQuestion : String) : PlannerOutput :=
  match extractJsonObject raw with
  | none => conservativePlan fallbackQuestion
  | some jsonText =>
    match jsonParse (String.mk jsonText) with
    | none => conservativePlan fallbackQuestion
    | some Json.null => conservativePlan fallbackQuestion
    | some parsed => plannerCoerce parsed fallbackQuestion

/-! ## Final model output parsing (src/unnamed/part_002, lines 168–214) -/

/-- Parsed final-model output plus the `ok` flag. -/
structure ParsedFinalModelOutput where
  answer : String
  usedSourceNumbers : List JNum
  ok : Bool
deriving DecidableEq, Repr

/-- Model of `parseFinalModelOutput`. -/
def parseFinalModelOutput (raw : List Char) : ParsedFinalModelOutput :=
  match extractJsonObject raw with
  | none => ⟨"", [], false⟩
  | some jsonText =>
    match jsonParse (String.mk jsonText) with
    | none => ⟨"", [], false⟩
    | some Json.null => ⟨"", [], false⟩
    | some parsed =>
      let answer : String :=
        match jsGet parsed "answer" with
        | some (Json.str s) => jsTrimStr s
        | _ => ""
      let used : List JNum :=
        match jsGet parsed "usedSourceNumbers" with
        | some (Json.arr ns) =>
          ns.filterMap (fun n =>
            match n with
            | Json.num q => some q
            | _ => none)
        | _ => []
      ⟨answer, used, answer.length != 0⟩

/-- Replace every two-character sequence backslash-`x` by `rep`,
left to right and without overlap (model of the global regex replaces
in `extractAnswerFallbackText`). -/
def replaceEscPair (x rep : Char) : List Char → List Char
  | [] => []
  | '\\' :: y :: rest =>
    if y = x then rep :: replaceEscPair x rep rest
    else '\\' :: replaceEscPair x rep (y :: rest)
  | c :: rest => c :: replaceEscPair x rep rest

/-- After a closing quote of the lazily captured `answer` value, the
regex requires optional whitespace and then a comma or closing
brace. -/
def answerCloseOk (rest : List Char) : Bool :=
  match rest.dropWhile jsWhitespaceChar with
  | ',' :: _ => true
  | '\x7d' :: _ => true
  | _ => false

/-- Lazy capture loop for the `answer` field regex: the capture ends at
the first quote that is followed by a valid closer. -/
def answerCaptureLoop : List Char → List Char → Option (List Char)
  | [], _ => none
  | '"' :: rest, acc =>
    if answerCloseOk rest then some acc.reverse
    else answerCaptureLoop rest ('"' :: acc)
  | c :: rest, acc => answerCaptureLoop rest (c :: acc)

/-- Attempt the `answer`-field match right after a literal
`"answer"`. -/
def tryAnswerCapture (cs : List Char) : Option (List Char) :=
  match cs.dropWhile jsWhitespaceChar with
  | ':' :: cs2 =>
    match cs2.dropWhile jsWhitespaceChar with
    | '"' :: cs4 => answerCaptureLoop cs4 []
    | _ => none
  | _ => none

/-- Leftmost match of the capture regex
`"answer"\s*:\s*"(lazy)"(\s*,|\s*closing-brace)`. -/
def answerFieldCapture : List Char → Option (List Char)
  | [] => none
  | c :: rest =>
    if List.isPrefixOf "\"answer\"".data (c :: rest) then
      match tryAnswerCapture ((c :: rest).drop 8) with
      | some cap => some cap
      | none => answerFieldCapture rest
    else answerFieldCapture rest

/-- Leftmost case-insensitive `"answer"` occurrence followed by
optional whitespace and a colon; returns the suffix after the colon and
its trailing whitespace (the anchored prefix-stripping regex). -/
def findAnswerColon : List Char → Option (List Char)
  | [] => none
  | c :: rest =>
    if ciStartsWith "\"answer\"".data (c :: rest) then
      match ((c :: rest).drop 8).dropWhile jsWhitespaceChar with
      | ':' :: r2 => some (r2.dropWhile jsWhitespaceChar)
      | _ => findAnswerColon rest
    else findAnswerColon rest

/-- The stripped-text branch of `extractAnswerFallbackText`: drop
everything through `"answer" :`, drop everything from
`"usedSourceNumbers"` on, delete JSON punctuation, trim. -/
def strippedFallback (raw : List Char) : List Char :=
  let s1 := match findAnswerColon raw with
    | some suffix => suffix
    | none => raw
  let s2 := match findCIIdx "\"usedsourcenumbers\"".data s1 with
    | some k => s1.take k
    | none => s1
  jsTrim (s2.filter (fun c =>
    ¬ (c = '\x7b' ∨ c = '\x7d' ∨ c = '[' ∨ c = ']' ∨ c = '"')))

/-- Model of `extractAnswerFallbackText` (src/unnamed/part_002, lines
199–214): regex extraction of the raw `answer` string with `\"` and
`\n` unescaped, else the stripped text. -/
def extractAnswerFallbackText (raw : List Char) : List Char :=
  match answerFieldCapture raw with
  | some cap =>
    if cap.isEmpty then strippedFallback raw
    else jsTrim (replaceEscPair 'n' '\n' (replaceEscPair '"' '"' cap))
  | none => strippedFallback raw

/-! ## Retrieved chunks, dedupe and source fragments
(src/unnamed/part_002, lines 111–129 and 141–166) -/

/-- A row returned by the vector-store lookup (`RetrievedChunk` in
src/unnamed/part_001); `id` is optional exactly as in the generic bound
of `dedupeChunks`. -/
structure RetrievedChunk where
  id : Option String
  content : String
  source : String
  metadata : Option (List (String × Json))
  similarity : ℚ

/-- Metadata lookup (`chunk.metadata?.key`). -/
def metaGet (m : Option (List (String × Json))) (k : String) : Option Json :=
  match m with
  | some ms => jsObjGet ms k
  | none => none

/-- The identity key `dedupeChunks` deduplicates on: `id` when present,
else `source:chunk_index` with `"na"` for an absent or non-numeric,
non-string `chunk_index`. -/
def chunkKey (c : RetrievedChunk) : String :=
  match c.id with
  | some i => i
  | none =>
    let idxStr : String :=
      match metaGet c.metadata "chunk_index" with
      | some (Json.num n) => jnToString n
      | some (Json.str s) => s
      | _ => "na"
    c.source ++ ":" ++ idxStr

/-- The `seen`-set loop of `dedupeChunks`. -/
def dedupeChunksGo (seen : List String) : List RetrievedChunk → List RetrievedChunk
  | [] => []
  | c :: rest =>
    if chunkKey c ∈ seen then dedupeChunksGo seen rest
    else c :: dedupeChunksGo (chunkKey c :: seen) rest

/-- Model of `dedupeChunks`. -/
def dedupeChunks (chunks : List RetrievedChunk) : List RetrievedChunk :=
  dedupeChunksGo [] chunks

/-- A response-facing source fragment. -/
structure SourceFragment where
  title : String
  url : Option String
  excerpt : String
deriving DecidableEq, Repr

/-- First-seen deduplication by numeric value
(`[...new Set(usedSourceNumbers)]`; JavaScript sets compare numbers by
SameValueZero). -/
def dedupJNumsGo (seen : List JNum) : List JNum → List JNum
  | [] => []
  | n :: rest =>
    if seen.any (fun m => jnValEq m n) then dedupJNumsGo seen rest
    else n :: dedupJNumsGo (n :: seen) rest

/-- First-seen value-deduplication of a number list. -/
def dedupJNums (l : List JNum) : List JNum := dedupJNumsGo [] l

/-- The `normalizedNumbers` computed by `getSourceFragmentsByNumber`:
deduplicate, keep only integers in `1 .. chunksLen`, sort ascending by
value (`.sort((a, b) => a - b)`; JavaScript's sort is stable and is
modelled by insertion sort). -/
def normalizedSourceNumbers (chunksLen : Nat) (used : List JNum) : List JNum :=
  ((dedupJNums used).filter
    (fun n => jnIsInteger n && jnPos n && jnLeNat n chunksLen)).insertionSort
    (fun a b => jnValLe a b = true)

/-- Placeholder chunk backing the (provably unreachable) out-of-bounds
read in the model of `chunks[sourceNumber - 1]`. -/
def emptyChunk : RetrievedChunk := ⟨none, "", "", none, 0⟩

/-- Model of `getSourceFragmentsByNumber`. -/
def getSourceFragmentsByNumber (chunks : List RetrievedChunk) (used : List JNum) :
    List SourceFragment :=
  (normalizedSourceNumbers chunks.length used).map (fun n =>
    let chunk := chunks.getD ((jnIntVal n) - 1).toNat emptyChunk
    let sourceUrl : Option String :=
      match metaGet chunk.metadata "source_url" with
      | some (Json.str s) => if 0 < (jsTrim s.data).length then some (jsTrimStr s) else none
      | _ => none
    let sourceTitle : String :=
      match metaGet chunk.metadata "source_title" with
      | some (Json.str s) => if 0 < (jsTrim s.data).length then jsTrimStr s else chunk.source
      | _ => chunk.source
    ⟨"[" ++ toString (jnIntVal n) ++ "] " ++ sourceTitle, sourceUrl, jsTrimStr chunk.content⟩)

/-! ## Retrieval fan-out (src/unnamed/part_002, lines 291–299) -/

/-- Model of `Promise.all` over settled outcomes: the whole batch
resolves with every value, or rejects as soon as any input rejected
(the rejection reported first positionally stands in for the one
reported first temporally; the route only catches it). -/
def promiseAll {α : Type} : List (Except String α) → Except String (List α)
  | [] => .ok []
  | .error e :: _ => .error e
  | .ok a :: rest =>
    match promiseAll rest with
    | .ok as => .ok (a :: as)
    | .error e => .error e

/-- Model of the route's retrieval step: `Promise.all` over the
per-query `searchRelevantChunks` outcomes inside a single
`try`/`catch`; the `catch` leaves `contextChunks` as `[]`. -/
def retrieveContextChunks (ragResults : List (Except String (List RetrievedChunk))) :
    List RetrievedChunk :=
  match promiseAll ragResults with
  | .ok results => dedupeChunks results.flatten
  | .error _ => []

/-! ## Truncation retry (src/unnamed/part_002, lines 328–349) -/

/-- A generation result (`generateGeminiTextWithMeta`). -/
structure GenResult where
  text : String
  finishReason : Option String
deriving DecidableEq, Repr

/-- Model of the final-answer generation step: if the first response's
finish reason is `MAX_TOKENS`, issue exactly one retry with budget
`max(configured, 4096)` and keep its result; otherwise keep the first
result.  The second component records the budgets of the retry calls
actually issued. -/
def finalGenerationWithRetry (finalModelMaxOutputTokens : Nat) (first : GenResult)
    (retryCall : Nat → GenResult) : GenResult × List Nat :=
  if first.finishReason = some "MAX_TOKENS" then
    (retryCall (max finalModelMaxOutputTokens 4096), [max finalModelMaxOutputTokens 4096])
  else (first, [])

/-! ## Visible answer fallback chain (src/unnamed/part_002, lines 350–374) -/

/-- The fixed apology string. -/
def APOLOGY : String := "I’m sorry, I couldn’t generate a complete answer."

/-- JavaScript `a || b` on strings: the empty string is falsy. -/
def jsStringOr (a b : String) : String := if a = "" then b else a

/-- Model of the route's parse/repair/fallback step.  `repairOutcome`
is the outcome of the repair generation call (`none` models a thrown
error, swallowed by the `catch`); it is consulted only when the first
parse was not ok.  Returns the visible answer and the final parse
record (whose `usedSourceNumbers` feed source-fragment
construction). -/
def computeVisibleAnswer (finalAnswer : List Char)
    (repairOutcome : Option (List Char)) : String × ParsedFinalModelOutput :=
  let firstParsed := parseFinalModelOutput finalAnswer
  let parsedFinal :=
    if firstParsed.ok then firstParsed
    else
      match repairOutcome with
      | some repaired => parseFinalModelOutput repaired
      | none => firstParsed
  let visible := jsStringOr
    (jsStringOr parsedFinal.answer (String.mk (extractAnswerFallbackText finalAnswer)))
    APOLOGY
  (visible, parsedFinal)

/-! ## Streaming encoder (src/unnamed/part_002, lines 131–139 and
379–392) and client decoder (src/components/ChatInterface.tsx, lines
218–258) -/

/-- One pass of `text.split(regex-captured-newline-runs)`: alternating
(possibly empty) newline-free pieces and maximal newline runs, with the
captured runs kept.  Fuel `cs.length` dominates the pass (each step
consumes at least one newline). -/
def splitNewlineRunsGo : Nat → List Char → List (List Char)
  | 0, cs => [cs]
  | fuel + 1, cs =>
    let pre := cs.takeWhile (fun c => ¬ c = '\n')
    let rest := cs.drop pre.length
    if rest.isEmpty then [pre]
    else
      let run := rest.takeWhile (fun c => c = '\n')
      pre :: run :: splitNewlineRunsGo fuel (rest.drop run.length)

/-- Split into alternating newline-free pieces and newline runs. -/
def splitNewlineRuns (cs : List Char) : List (List Char) :=
  splitNewlineRunsGo cs.length cs

/-- Whether the regex `.` (no `s` flag) matches the character: every
character except the four ECMAScript line terminators. -/
def jsDotChar (c : Char) : Bool :=
  !(c = '\n' || c = '\r' || c = '\u2028' || c = '\u2029')

/-- The successive matches of the global 1-to-120-dots regex: at each
position the engine greedily takes up to 120 characters `.` can match,
and steps over a character `.` cannot match (so stray line terminators
are dropped from the output). -/
def chunk120Go : Nat → List Char → List (List Char)
  | 0, _ => []
  | _ + 1, [] => []
  | fuel + 1, c :: rest =>
    if jsDotChar c then
      let piece := ((c :: rest).takeWhile jsDotChar).take 120
      piece :: chunk120Go fuel ((c :: rest).drop piece.length)
    else
      chunk120Go fuel rest

/-- Model of `part.match(the global 1-to-120-dots regex) ?? [part]`:
the matches in order, or the part itself when there is none. -/
def chunk120 (cs : List Char) : List (List Char) :=
  if (chunk120Go cs.length cs).isEmpty then [cs] else chunk120Go cs.length cs

/-- Model of `splitForStream`: split at newline runs keeping the runs,
slice non-blank pieces to at most 120 characters, drop empty pieces. -/
def splitForStream (text : List Char) : List (List Char) :=
  ((splitNewlineRuns text).flatMap (fun part =>
    if (jsTrim part).isEmpty then [part] else chunk120 part)).filter
    (fun part => 0 < part.length)

/-- The stream's metadata start sentinel. -/
def RAG_CONTEXT_START : List Char := "<<RAG_CONTEXT_JSON>>".data

/-- The stream's metadata end sentinel. -/
def RAG_CONTEXT_END : List Char := "<<END_RAG_CONTEXT_JSON>>".data

/-- Hex digit character (lowercase), for `JSON.stringify` control
escapes. -/
def hexDigit (n : Nat) : Char :=
  if n < 10 then Char.ofNat (48 + n) else Char.ofNat (87 + n)

/-- Per-character escaping of `JSON.stringify` for string values. -/
def jsonEscapeChar (c : Char) : List Char :=
  if c = '"' then ['\\', '"']
  else if c = '\\' then ['\\', '\\']
  else if c = '\n' then ['\\', 'n']
  else if c = '\r' then ['\\', 'r']
  else if c = '\t' then ['\\', 't']
  else if c = '\x08' then ['\\', 'b']
  else if c = '\x0c' then ['\\', 'f']
  else if c.toNat < 0x20 then
    ['\\', 'u', '0', '0', hexDigit (c.toNat / 16), hexDigit (c.toNat % 16)]
  else [c]

/-- `JSON.stringify` of a string value. -/
def encodeJsonStringLit (s : String) : List Char :=
  '"' :: (s.data.flatMap jsonEscapeChar ++ ['"'])

/-- `JSON.stringify` of one source fragment (field order as
constructed by `getSourceFragmentsByNumber`). -/
def encodeFragmentJson (f : SourceFragment) : List Char :=
  '\x7b' :: ("\"title\":".data ++ encodeJsonStringLit f.title
    ++ ",\"url\":".data
    ++ (match f.url with
        | some u => encodeJsonStringLit u
        | none => "null".data)
    ++ ",\"excerpt\":".data ++ encodeJsonStringLit f.excerpt) ++ ['\x7d']

/-- Comma-joined fragment encodings. -/
def encodeFragListInner : List SourceFragment → List Char
  | [] => []
  | [f] => encodeFragmentJson f
  | f :: rest => encodeFragmentJson f ++ ',' :: encodeFragListInner rest

/-- `JSON.stringify` of a fragment array. -/
def encodeFragmentsJson (fs : List SourceFragment) : List Char :=
  '[' :: (encodeFragListInner fs ++ [']'])

/-- `JSON.stringify` of the payload object the route streams between
the sentinels. -/
def metadataJson (fs : List SourceFragment) : List Char :=
  '\x7b' :: ("\"sourceFragments\":".data ++ encodeFragmentsJson fs) ++ ['\x7d']

/-- The route's `metadataMarker` string: two newlines, the start
sentinel, `JSON.stringify` of the fragment payload object, the end
sentinel. -/
def metadataMarker (fs : List SourceFragment) : List Char :=
  "\n\n".data ++ RAG_CONTEXT_START ++ metadataJson fs ++ RAG_CONTEXT_END

/-- The full byte stream the route emits: the `splitForStream` pieces
of the visible answer in order, then the metadata marker, concatenated
exactly as the client's reader accumulates them. -/
def encodeAssistantStream (visible : List Char) (fs : List SourceFragment) : List Char :=
  (splitForStream visible).flatten ++ metadataMarker fs

/-- The client's view of a decoded assistant payload. -/
structure AssistantPayload where
  content : List Char
  sourceFragments : Option (List SourceFragment)
deriving DecidableEq, Repr

/-- The client's per-item fragment normalization inside
`parseAssistantPayload`: items without a string `excerpt` are dropped;
`title` falls back to `"Source"`, `url` to `null`. -/
def clientNormalizeFragment (item : Json) : Option SourceFragment :=
  match jsGet item "excerpt" with
  | some (Json.str e) =>
    some ⟨(match jsGet item "title" with
          | some (Json.str t) => if (jsTrim t.data).isEmpty then "Source" else jsTrimStr t
          | _ => "Source"),
        (match jsGet item "url" with
          | some (Json.str u) => if (jsTrim u.data).isEmpty then none else some (jsTrimStr u)
          | _ => none),
        e⟩
  | _ => none

/-- Model of the client's `parseAssistantPayload`
(src/components/ChatInterface.tsx): split at the first start sentinel;
without an end sentinel keep only the preceding text; otherwise
`JSON.parse` the middle and normalize `sourceFragments`, omitting the
field when the resulting list is empty and on any parse failure. -/
def parseAssistantPayload (raw : List Char) : AssistantPayload :=
  match findSubIdx RAG_CONTEXT_START raw with
  | none => ⟨raw, none⟩
  | some start =>
    let afterStart := raw.drop (start + RAG_CONTEXT_START.length)
    match findSubIdx RAG_CONTEXT_END afterStart with
    | none => ⟨raw.take start, none⟩
    | some endRel =>
      let content := raw.take start
      match jsonParse (String.mk (afterStart.take endRel)) with
      | none => ⟨content, none⟩
      | some Json.null => ⟨content, none⟩
      | some parsed =>
        let frags : List SourceFragment :=
          match jsGet parsed "sourceFragments" with
          | some (Json.arr items) => items.filterMap clientNormalizeFragment
          | _ => []
        ⟨content, if frags.isEmpty then none else some frags⟩

/-- The JSON value denoted by one encoded fragment. -/
def fragJson (f : SourceFragment) : Json :=
  Json.obj [("title", Json.str f.title),
    ("url", match f.url with
      | some u => Json.str u
      | none => Json.null),
    ("excerpt", Json.str f.excerpt)]

/-- The JSON value denoted by the encoded metadata payload. -/
def payloadJson (fs : List SourceFragment) : Json :=
  Json.obj [("sourceFragments", Json.arr (fs.map fragJson))]

/-- What the client's normalization turns a round-tripped fragment
into: the identity on canonically formed fragments (trimmed nonempty
title, trimmed nonempty or absent url). -/
def clientRoundTripFragment (f : SourceFragment) : SourceFragment :=
  ⟨if (jsTrim f.title.data).isEmpty then "Source" else jsTrimStr f.title,
    (match f.url with
      | some u => if (jsTrim u.data).isEmpty then none else some (jsTrimStr u)
      | none => none),
    f.excerpt⟩

/-- `pat` occurs in `l` at position `p`. -/
def occursAt (pat l : List Char) (p : Nat) : Prop :=
  (l.drop p).take pat.length = pat

/-- The sort comparator's relation is total. -/
instance jnValLeTotalInst : IsTotal JNum (fun a b => jnValLe a b = true) :=
  ⟨fun a b => by
    simp only [jnValLe, decide_eq_true_eq]
    exact le_total _ _⟩

/-- The sort comparator's relation is transitive. -/
instance jnValLeTransInst : IsTrans JNum (fun a b => jnValLe a b = true) :=
  ⟨fun a b c hab hbc => by
    simp only [jnValLe, decide_eq_true_eq] at hab hbc ⊢
    have hb : (0 : Int) < 10 ^ b.scale := pow_pos (by norm_num) _
    nlinarith [mul_le_mul_of_nonneg_right hab
        (le_of_lt (pow_pos (show (0 : Int) < 10 by norm_num) c.scale)),
      mul_le_mul_of_nonneg_right hbc
        (le_of_lt (pow_pos (show (0 : Int) < 10 by norm_num) a.scale))]⟩

/-! # Theorems -/

/-- Claim C2: the embedding normalizer's length contract.  For every
input vector `v` and target dimension `targetDim`,
`normalizeEmbedding targetDim v` has length exactly `targetDim`;
moreover it is the identity when the length already matches, the list
of contiguous-bucket arithmetic means when the length is a larger
multiple of `targetDim`, the `targetDim`-prefix truncation when the
length is larger but not a multiple, and the zero-right-padding when
the length is smaller. -/
theorem claim_C2_normalizer_length (targetDim : Nat) (v : List ℚ) :
    (normalizeEmbedding targetDim v).length = targetDim
      ∧ (v.length = targetDim → normalizeEmbedding targetDim v = v)
      ∧ (targetDim < v.length → v.length % targetDim = 0 →
          normalizeEmbedding targetDim v =
            (List.range targetDim).map (fun i =>
              ((List.range (v.length / targetDim)).map
                (fun j => v.getD (i * (v.length / targetDim) + j) 0)).sum
                / ((v.length / targetDim : Nat) : ℚ)))
      ∧ (targetDim < v.length → v.length % targetDim ≠ 0 →
          normalizeEmbedding targetDim v = v.take targetDim)
      ∧ (v.length < targetDim →
          normalizeEmbedding targetDim v = v ++ List.replicate (targetDim - v.length) 0) := by
  unfold normalizeEmbedding
  by_cases h1 : v.length = targetDim
  · rw [if_pos h1]
    exact ⟨h1, fun _ => rfl, fun h3 _ => absurd h1 (by omega),
      fun h3 _ => absurd h1 (by omega), fun h => absurd h1 (by omega)⟩
  · rw [if_neg h1]
    by_cases h2 : targetDim < v.length ∧ v.length % targetDim = 0
    · rw [if_pos h2]
      exact ⟨by simp, fun h => absurd h h1, fun _ _ => rfl,
        fun _ hm => absurd h2.2 hm, fun hl => absurd h2.1 (by omega)⟩
    · rw [if_neg h2]
      by_cases h3 : targetDim < v.length
      · rw [if_pos h3]
        have hmod : v.length % targetDim ≠ 0 := fun h => h2 ⟨h3, h⟩
        exact ⟨by rw [List.length_take]; omega, fun h => absurd h h1,
          fun _ hm => absurd hm hmod, fun _ _ => rfl, fun h => absurd h3 (by omega)⟩
      · rw [if_neg h3]
        have hlt : v.length < targetDim := by omega
        exact ⟨by simp [List.length_append, List.length_replicate]; omega,
          fun h => absurd h h1, fun h _ => absurd h h3, fun h _ => absurd h h3,
          fun _ => rfl⟩

/-- Witness for claim C2 at a concrete input: the bucket-mean branch at
target dimension `2` on the length-`4` vector `[1, 3, 5, 7]` produces
`[(1+3)/2, (5+7)/2] = [2, 6]`, a vector of length `2`. -/
theorem claim_C2_normalizer_length_witness :
    (2 < ([1, 3, 5, 7] : List ℚ).length ∧ ([1, 3, 5, 7] : List ℚ).length % 2 = 0)
      ∧ normalizeEmbedding 2 [1, 3, 5, 7] = [2, 6]
      ∧ (normalizeEmbedding 2 [1, 3, 5, 7]).length = 2 := by
  refine ⟨by norm_num, ?_, (claim_C2_normalizer_length 2 [1, 3, 5, 7]).1⟩
  have h := (claim_C2_normalizer_length 2 [1, 3, 5, 7]).2.2.1 (by norm_num) (by norm_num)
  rw [h]
  norm_num [List.range_succ]

/-- Claim C3: normalization is identical at ingestion time and at query
time — the ingestion script's `normalizeEmbedding` and the RAG
library's `normalizeEmbedding` compute the same output on every vector,
for the same configured target dimensionality. -/
theorem claim_C3_normalization_identical (targetDim : Nat) (v : List ℚ) :
    ingest_normalizeEmbedding targetDim v = normalizeEmbedding targetDim v := rfl

/-- The two chunker copies (RAG library and ingestion script) are also
definitionally identical; recorded as a supporting fact. -/
theorem ingest_buildChunks_eq (text : List Char) (chunkSize overlap : Nat) :
    ingest_buildChunks text chunkSize overlap = buildChunks text chunkSize overlap := rfl

/-- Loop invariant of the chunking walk: whenever the fuel dominates the
remaining distance, the emitted chunk list is nonempty, its head is the
next window slice, every chunk fits in `size` characters, its last
element is a suffix of the cleaned text (so the final chunk ends exactly
at the text's length), and adjacent chunks share exactly `overlap`
characters. -/
theorem buildChunksGo_spec (cleaned : List Char) (size overlap : Nat)
    (hov : 0 < overlap) (hso : overlap < size) :
    ∀ fuel start, start < cleaned.length → cleaned.length ≤ fuel + start →
      buildChunksGo cleaned size overlap fuel start ≠ []
        ∧ (buildChunksGo cleaned size overlap fuel start).head? =
            some ((cleaned.drop start).take (min (start + size) cleaned.length - start))
        ∧ (∀ c ∈ buildChunksGo cleaned size overlap fuel start, c.length ≤ size)
        ∧ (∃ s, (buildChunksGo cleaned size overlap fuel start).getLast? =
            some (cleaned.drop s))
        ∧ List.Chain' (fun a b => a.drop (a.length - overlap) = b.take overlap)
            (buildChunksGo cleaned size overlap fuel start) := by
  intro fuel
  induction fuel with
  | zero => intro start h1 h2; omega
  | succ fuel ih =>
    intro start h1 h2
    by_cases hfin : cleaned.length ≤ start + size
    · have he : min (start + size) cleaned.length = cleaned.length :=
        Nat.min_eq_right hfin
      have hstep : buildChunksGo cleaned size overlap (fuel + 1) start =
          [(cleaned.drop start).take (cleaned.length - start)] := by
        simp only [buildChunksGo]
        rw [if_pos h1,
          if_pos (by omega : cleaned.length ≤ min (start + size) cleaned.length),
          show min (start + size) cleaned.length - start = cleaned.length - start from by omega]
      have hchunk : (cleaned.drop start).take (cleaned.length - start) =
          cleaned.drop start := by
        have h := List.take_length (cleaned.drop start)
        rwa [List.length_drop] at h
      refine ⟨by simp [hstep], ?_, ?_, ⟨start, by simp [hstep, hchunk]⟩,
        by rw [hstep]; exact List.chain'_singleton _⟩
      · rw [hstep, List.head?_cons, he]
      · intro c hc
        rw [hstep] at hc
        simp only [List.mem_singleton] at hc
        subst hc
        rw [List.length_take, List.length_drop]
        omega
    · have he : min (start + size) cleaned.length = start + size :=
        Nat.min_eq_left (by omega)
      have hlt : ¬ cleaned.length ≤ start + size := hfin
      have hstep : buildChunksGo cleaned size overlap (fuel + 1) start =
          (cleaned.drop start).take size ::
            buildChunksGo cleaned size overlap fuel (start + size - overlap) := by
        simp only [buildChunksGo]
        rw [if_pos h1,
          if_neg (by omega : ¬ cleaned.length ≤ min (start + size) cleaned.length),
          show min (start + size) cleaned.length - start = size from by omega,
          show min (start + size) cleaned.length - overlap = start + size - overlap from by omega]
      have h1' : start + size - overlap < cleaned.length := by omega
      have h2' : cleaned.length ≤ fuel + (start + size - overlap) := by omega
      obtain ⟨hne, hhead, hlenr, ⟨s, hs⟩, hchain⟩ := ih (start + size - overlap) h1' h2'
      have hchunklen : ((cleaned.drop start).take size).length = size := by
        rw [List.length_take, List.length_drop]
        omega
      have hshare : ((cleaned.drop start).take size).drop
            (((cleaned.drop start).take size).length - overlap) =
          ((cleaned.drop (start + size - overlap)).take
            (min (start + size - overlap + size) cleaned.length
              - (start + size - overlap))).take overlap := by
        rw [hchunklen, List.drop_take, List.drop_drop, List.take_take]
        have h3 : size - (size - overlap) = overlap := by omega
        have h4 : start + (size - overlap) = start + size - overlap := by omega
        have h5 : min overlap (min (start + size - overlap + size) cleaned.length
            - (start + size - overlap)) = overlap := by
          rcases Nat.le_total (start + size - overlap + size) cleaned.length with hle | hle
          · rw [Nat.min_eq_left hle]; omega
          · rw [Nat.min_eq_right hle]; omega
        rw [h3, h4, h5]
      refine ⟨by simp [hstep],
        by rw [hstep, List.head?_cons, he,
          show start + size - start = size from by omega], ?_, ?_, ?_⟩
      · intro c hc
        rw [hstep] at hc
        rcases List.mem_cons.mp hc with hc | hc
        · subst hc; rw [hchunklen]
        · exact hlenr c hc
      · refine ⟨s, ?_⟩
        rw [hstep]
        rcases hrest : buildChunksGo cleaned size overlap fuel (start + size - overlap) with
          _ | ⟨y, ys⟩
        · exact absurd hrest hne
        · rw [List.getLast?_cons_cons, ← hrest, hs]
      · rw [hstep, List.chain'_cons']
        refine ⟨?_, hchain⟩
        intro b hb
        rw [hhead] at hb
        simp only [Option.mem_def, Option.some.injEq] at hb
        subst hb
        exact hshare

/-- Claim C7: chunker windowing.  For every text and every
`0 < overlap < size`: every chunk returned by `buildChunks` has length
at most `size`; the final chunk is a suffix of the cleaned (CRLF-normalized
and trimmed) text, i.e. it ends exactly at the trimmed text's length; and
each adjacent pair of chunks shares exactly the overlap — the last
`overlap` characters of chunk `i` equal the first `overlap` characters of
chunk `i + 1`. -/
theorem claim_C7_chunker_windowing (text : List Char) (size overlap : Nat)
    (hov : 0 < overlap) (hso : overlap < size) :
    (∀ c ∈ buildChunks text size overlap, c.length ≤ size)
      ∧ (∀ c, (buildChunks text size overlap).getLast? = some c →
          ∃ s, c = (jsTrim (replaceCRLF text)).drop s)
      ∧ List.Chain' (fun a b => a.drop (a.length - overlap) = b.take overlap)
          (buildChunks text size overlap) := by
  unfold buildChunks
  by_cases hcl : (jsTrim (replaceCRLF text)).isEmpty
  · rw [if_pos hcl]
    exact ⟨by simp, by simp, List.chain'_nil⟩
  · rw [if_neg hcl]
    have hpos : 0 < (jsTrim (replaceCRLF text)).length := by
      rcases h : jsTrim (replaceCRLF text) with _ | _
      · rw [h] at hcl; simp at hcl
      · simp
    obtain ⟨hne, hhead, hlen, ⟨s, hs⟩, hchain⟩ :=
      buildChunksGo_spec (jsTrim (replaceCRLF text)) size overlap hov hso
        (jsTrim (replaceCRLF text)).length 0 hpos (by omega)
    refine ⟨hlen, ?_, hchain⟩
    intro c hc
    rw [hs] at hc
    exact ⟨s, (Option.some.inj hc).symm⟩

/-- Witness for claim C7 at a concrete input: chunking the 8-character
text `abcdefgh` with `size = 3`, `overlap = 1` yields
`["abc", "cde", "efg", "gh"]`; all three claimed properties hold there. -/
theorem claim_C7_chunker_windowing_witness :
    ((0 : Nat) < 1 ∧ (1 : Nat) < 3)
      ∧ (∀ c ∈ buildChunks "abcdefgh".data 3 1, c.length ≤ 3)
      ∧ (∀ c, (buildChunks "abcdefgh".data 3 1).getLast? = some c →
          ∃ s, c = (jsTrim (replaceCRLF "abcdefgh".data)).drop s)
      ∧ List.Chain' (fun a b => a.drop (a.length - 1) = b.take 1)
          (buildChunks "abcdefgh".data 3 1)
      ∧ buildChunks "abcdefgh".data 3 1 = ["abc".data, "cde".data, "efg".data, "gh".data] := by
  have h := claim_C7_chunker_windowing "abcdefgh".data 3 1 (by decide) (by decide)
  exact ⟨⟨by decide, by decide⟩, h.1, h.2.1, h.2.2, by decide⟩

/-- Loop invariant of `dedupeChunks`: relative to an accumulated `seen`
key set, the output has pairwise-distinct keys, none of them in `seen`,
it is an order-preserving sublist of the input, and every input element
whose key is not yet seen is represented in the output. -/
theorem dedupeChunksGo_spec (l : List RetrievedChunk) :
    ∀ seen : List String,
      ((dedupeChunksGo seen l).map chunkKey).Nodup
        ∧ (∀ k ∈ (dedupeChunksGo seen l).map chunkKey, k ∉ seen)
        ∧ (dedupeChunksGo seen l).Sublist l
        ∧ (∀ c ∈ l, chunkKey c ∉ seen → chunkKey c ∈ (dedupeChunksGo seen l).map chunkKey) := by
  induction l with
  | nil => intro seen; simp [dedupeChunksGo]
  | cons c rest ih =>
    intro seen
    by_cases h : chunkKey c ∈ seen
    · simp only [dedupeChunksGo, if_pos h]
      obtain ⟨h1, h2, h3, h4⟩ := ih seen
      refine ⟨h1, h2, h3.cons c, ?_⟩
      intro d hd hdk
      rcases List.mem_cons.mp hd with rfl | hd'
      · exact absurd h hdk
      · exact h4 d hd' hdk
    · simp only [dedupeChunksGo, if_neg h]
      obtain ⟨h1, h2, h3, h4⟩ := ih (chunkKey c :: seen)
      refine ⟨?_, ?_, h3.cons₂ c, ?_⟩
      · rw [List.map_cons, List.nodup_cons]
        exact ⟨fun hmem => (h2 _ hmem) (List.mem_cons_self _ _), h1⟩
      · intro k hk
        rw [List.map_cons] at hk
        rcases List.mem_cons.mp hk with rfl | hk'
        · exact h
        · exact fun hs => (h2 k hk') (List.mem_cons_of_mem _ hs)
      · intro d hd hdk
        rcases List.mem_cons.mp hd with rfl | hd'
        · exact List.mem_cons_self _ _
        · by_cases hkey : chunkKey d = chunkKey c
          · rw [List.map_cons, hkey]
            exact List.mem_cons_self _ _
          · refine List.mem_cons_of_mem _ (h4 d hd' ?_)
            intro hmem
            rcases List.mem_cons.mp hmem with heq | hmem'
            · exact hkey heq
            · exact hdk hmem'

/-- Claim C8: retrieval dedupe invariant.  For every input list, no two
entries of `dedupeChunks`' output share the same identity key (`id`
when present, else `source:chunk_index` with `na` for an absent or
non-numeric, non-string index), the output is an order-preserving
sublist of the input whose head is the input's first element, and every
input key is represented. -/
theorem claim_C8_dedupe_invariant (chunks : List RetrievedChunk) :
    ((dedupeChunks chunks).map chunkKey).Nodup
      ∧ (dedupeChunks chunks).Sublist chunks
      ∧ (∀ c ∈ chunks, chunkKey c ∈ (dedupeChunks chunks).map chunkKey)
      ∧ (∀ c cs, chunks = c :: cs → (dedupeChunks chunks).head? = some c) := by
  obtain ⟨h1, h2, h3, h4⟩ := dedupeChunksGo_spec chunks []
  refine ⟨h1, h3, fun c hc => h4 c hc (by simp), ?_⟩
  intro c cs heq
  subst heq
  simp [dedupeChunks, dedupeChunksGo]

/-- Witness for claim C8 at a concrete input: two chunks sharing id key
`k` and one id-less chunk with key `s:na`; the duplicate is dropped,
order and first occurrence are kept. -/
theorem claim_C8_dedupe_invariant_witness :
    ((dedupeChunks [⟨some "k", "a", "s", none, 0⟩, ⟨some "k", "b", "s", none, 0⟩,
        ⟨none, "c", "s", none, 0⟩]).map chunkKey).Nodup
      ∧ chunkKey (⟨some "k", "b", "s", none, 0⟩ : RetrievedChunk) ∈
          ((dedupeChunks [⟨some "k", "a", "s", none, 0⟩, ⟨some "k", "b", "s", none, 0⟩,
            ⟨none, "c", "s", none, 0⟩]).map chunkKey)
      ∧ (dedupeChunks [⟨some "k", "a", "s", none, 0⟩, ⟨some "k", "b", "s", none, 0⟩,
          ⟨none, "c", "s", none, 0⟩]).map chunkKey = ["k", "s:na"] := by
  have h := claim_C8_dedupe_invariant
    [⟨some "k", "a", "s", none, 0⟩, ⟨some "k", "b", "s", none, 0⟩, ⟨none, "c", "s", none, 0⟩]
  exact ⟨h.1, h.2.2.1 _ (List.mem_cons_of_mem _ (List.mem_cons_self _ _)), rfl⟩

/-- Accumulator invariant of the number-set deduplication: the output
is pairwise value-distinct and value-distinct from everything already
seen. -/
theorem dedupJNumsGo_spec (l : List JNum) :
    ∀ seen : List JNum,
      List.Pairwise (fun a b => jnValEq a b = false) (dedupJNumsGo seen l)
        ∧ (∀ n ∈ dedupJNumsGo seen l, ∀ m ∈ seen, jnValEq m n = false) := by
  induction l with
  | nil => intro seen; simp [dedupJNumsGo]
  | cons n rest ih =>
    intro seen
    by_cases h : seen.any (fun m => jnValEq m n) = true
    · simp only [dedupJNumsGo, if_pos h]
      exact ih seen
    · simp only [dedupJNumsGo, if_neg h]
      obtain ⟨h1, h2⟩ := ih (n :: seen)
      refine ⟨List.Pairwise.cons ?_ h1, ?_⟩
      · intro m hm
        exact h2 m hm n (List.mem_cons_self _ _)
      · intro x hx m hm
        rcases List.mem_cons.mp hx with rfl | hx'
        · by_contra hc
          exact h (List.any_eq_true.mpr ⟨m, hm, by
            revert hc
            cases jnValEq m x <;> simp⟩)
        · exact h2 x hx' m (List.mem_cons_of_mem _ hm)

/-- Value equality of decimals is symmetric. -/
theorem jnValEq_symm (a b : JNum) : jnValEq a b = jnValEq b a := by
  simp only [jnValEq]
  exact decide_eq_decide.mpr ⟨fun h => h.symm, fun h => h.symm⟩

/-- A positive integral decimal bounded by `len` yields an in-bounds
zero-based index. -/
theorem jn_index_bound (n : JNum) (len : Nat) (hInt : jnIsInteger n = true)
    (hPos : jnPos n = true) (hLe : jnLeNat n len = true) :
    ((jnIntVal n) - 1).toNat < len := by
  simp only [jnIsInteger, jnPos, jnLeNat, decide_eq_true_eq] at hInt hPos hLe
  have hP : (0 : Int) < 10 ^ n.scale := pow_pos (by norm_num) _
  have hdm := Int.ediv_add_emod n.mant ((10 : Int) ^ n.scale)
  rw [hInt, add_zero] at hdm
  simp only [jnIntVal]
  set q := n.mant / (10 : Int) ^ n.scale with hq
  have hq0 : 0 < q := by
    by_contra hc
    push_neg at hc
    nlinarith
  have hqlen : q ≤ (len : Int) := by
    have h2 : (10 : Int) ^ n.scale * q ≤ (10 : Int) ^ n.scale * len := by
      rw [hdm]
      linarith [hLe]
    exact le_of_mul_le_mul_left h2 hP
  omega

/-- Claim C10: source-fragment construction is in-bounds and
canonicalized.  For every chunk list and every `usedSourceNumbers`
array (including non-integer, zero, negative, out-of-range and
duplicate entries), the normalized number list is strictly ascending by
value (hence duplicate-free), every surviving number is an integer in
`1 .. chunks.length`, its zero-based index is in bounds, and the
fragment list maps exactly over the survivors. -/
theorem claim_C10_source_fragment_bounds (chunks : List RetrievedChunk) (used : List JNum) :
    List.Pairwise (fun a b => jnValLt a b = true) (normalizedSourceNumbers chunks.length used)
      ∧ (∀ n ∈ normalizedSourceNumbers chunks.length used,
          jnIsInteger n = true ∧ jnPos n = true ∧ jnLeNat n chunks.length = true
            ∧ ((jnIntVal n) - 1).toNat < chunks.length)
      ∧ (getSourceFragmentsByNumber chunks used).length =
          (normalizedSourceNumbers chunks.length used).length := by
  have hperm := List.perm_insertionSort (fun a b => jnValLe a b = true)
    ((dedupJNums used).filter (fun n => jnIsInteger n && jnPos n && jnLeNat n chunks.length))
  have hmem : ∀ n ∈ normalizedSourceNumbers chunks.length used,
      jnIsInteger n = true ∧ jnPos n = true ∧ jnLeNat n chunks.length = true := by
    intro n hn
    have hn' := hperm.subset hn
    have hpred := (List.mem_filter.mp hn').2
    simp only [Bool.and_eq_true] at hpred
    exact ⟨hpred.1.1, hpred.1.2, hpred.2⟩
  refine ⟨?_, fun n hn => ⟨(hmem n hn).1, (hmem n hn).2.1, (hmem n hn).2.2,
      jn_index_bound n chunks.length (hmem n hn).1 (hmem n hn).2.1 (hmem n hn).2.2⟩, ?_⟩
  · have hsorted : List.Pairwise (fun a b => jnValLe a b = true)
        (normalizedSourceNumbers chunks.length used) :=
      List.sorted_insertionSort _ _
    have hne : List.Pairwise (fun a b => jnValEq a b = false)
        (normalizedSourceNumbers chunks.length used) := by
      have hbase := (dedupJNumsGo_spec used []).1
      have hfil : List.Pairwise (fun a b => jnValEq a b = false)
          ((dedupJNums used).filter
            (fun n => jnIsInteger n && jnPos n && jnLeNat n chunks.length)) :=
        List.Pairwise.sublist (List.filter_sublist _) hbase
      exact (List.Perm.pairwise_iff
        (fun {x y} h => by rw [jnValEq_symm]; exact h) hperm).mpr hfil
    exact (hsorted.and hne).imp (fun {a b} hab => by
      rcases hab with ⟨hle, hne'⟩
      simp only [jnValLe, decide_eq_true_eq] at hle
      simp only [jnValEq, decide_eq_false_iff_not] at hne'
      simp only [jnValLt, decide_eq_true_eq]
      exact lt_of_le_of_ne hle hne')
  · simp [getSourceFragmentsByNumber]

/-- Witness for claim C10 at a concrete input: two chunks and a used
list with an out-of-range entry, duplicates, a non-integer `2.5`, zero
and a negative number; the survivors are exactly `[1, 2]` and indexing
is in bounds. -/
theorem claim_C10_source_fragment_bounds_witness :
    normalizedSourceNumbers 2 [⟨2, 0⟩, ⟨1, 0⟩, ⟨1, 0⟩, ⟨25, 1⟩, ⟨0, 0⟩, ⟨-3, 0⟩, ⟨9, 0⟩]
        = [⟨1, 0⟩, ⟨2, 0⟩]
      ∧ List.Pairwise (fun a b => jnValLt a b = true)
          (normalizedSourceNumbers 2 [⟨2, 0⟩, ⟨1, 0⟩, ⟨1, 0⟩, ⟨25, 1⟩, ⟨0, 0⟩, ⟨-3, 0⟩, ⟨9, 0⟩])
      ∧ ((jnIntVal ⟨2, 0⟩) - 1).toNat < 2 := by
  have h := claim_C10_source_fragment_bounds [emptyChunk, emptyChunk]
    [⟨2, 0⟩, ⟨1, 0⟩, ⟨1, 0⟩, ⟨25, 1⟩, ⟨0, 0⟩, ⟨-3, 0⟩, ⟨9, 0⟩]
  exact ⟨by decide, h.1, (h.2.1 ⟨2, 0⟩ (by decide)).2.2.2⟩

/-- A rejected input rejects the whole `Promise.all` batch. -/
theorem promiseAll_error {α : Type} (results : List (Except String α))
    (h : ∃ r ∈ results, ∃ e, r = Except.error e) :
    ∃ e, promiseAll results = Except.error e := by
  induction results with
  | nil => rcases h with ⟨r, hr, _⟩; cases hr
  | cons r rest ih =>
    rcases r with e | a
    · exact ⟨e, rfl⟩
    · rcases h with ⟨x, hx, e, hxe⟩
      rcases List.mem_cons.mp hx with rfl | hx'
      · cases hxe
      · obtain ⟨e', he'⟩ := ih ⟨x, hx', e, hxe⟩
        refine ⟨e', ?_⟩
        simp only [promiseAll, he']

/-- A fully resolved batch resolves with all values in order. -/
theorem promiseAll_ok {α : Type} (oks : List α) :
    promiseAll (oks.map Except.ok) = Except.ok oks := by
  induction oks with
  | nil => rfl
  | cons a rest ih => simp only [List.map_cons, promiseAll, ih]

/-- Counterexample to claim C4 as stated: with one successful query
(returning one chunk) and one failed query, the route's retrieval step
produces the empty context, not the partial result set
`dedupeChunks [the chunk]` from the queries that succeeded. -/
theorem claim_C4_retrieval_degradation_counterexample :
    retrieveContextChunks
        [Except.ok [⟨some "id1", "content", "src", none, 0⟩], Except.error "rpc failure"] = []
      ∧ dedupeChunks [⟨some "id1", "content", "src", none, 0⟩]
          = [⟨some "id1", "content", "src", none, 0⟩]
      ∧ ([] : List RetrievedChunk) ≠ [⟨some "id1", "content", "src", none, 0⟩] :=
  ⟨rfl, rfl, by simp⟩

/-- Claim C4, amended: the per-query failure is not isolated — any
rejected retrieval query rejects the whole `Promise.all`, the
surrounding `catch` discards every result, and the pipeline continues
with the empty context (the request itself never fails due to
retrieval); only a fully successful batch yields the deduplicated
concatenation. -/
theorem claim_C4_retrieval_degradation (results : List (Except String (List RetrievedChunk)))
    (oks : List (List RetrievedChunk)) :
    ((∃ r ∈ results, ∃ e, r = Except.error e) → retrieveContextChunks results = [])
      ∧ retrieveContextChunks (oks.map Except.ok) = dedupeChunks oks.flatten := by
  constructor
  · intro h
    obtain ⟨e, he⟩ := promiseAll_error results h
    simp only [retrieveContextChunks, he]
  · simp only [retrieveContextChunks, promiseAll_ok]

/-- Witness for (amended) claim C4 at concrete inputs: one failure
empties the context; an all-success batch is deduplicated and
concatenated. -/
theorem claim_C4_retrieval_degradation_witness :
    retrieveContextChunks
        [Except.ok [⟨some "a", "x", "s", none, 0⟩], Except.error "embedding failure"] = []
      ∧ retrieveContextChunks
          [Except.ok [⟨some "a", "x", "s", none, 0⟩], Except.ok [⟨some "a", "y", "s", none, 0⟩]]
        = [⟨some "a", "x", "s", none, 0⟩] := by
  have h := claim_C4_retrieval_degradation
    [Except.ok [⟨some "a", "x", "s", none, 0⟩], Except.error "embedding failure"]
    [[⟨some "a", "x", "s", none, 0⟩], [⟨some "a", "y", "s", none, 0⟩]]
  refine ⟨h.1 ⟨Except.error "embedding failure", by simp, "embedding failure", rfl⟩, ?_⟩
  rw [show [Except.ok [(⟨some "a", "x", "s", none, 0⟩ : RetrievedChunk)],
      Except.ok [(⟨some "a", "y", "s", none, 0⟩ : RetrievedChunk)]] =
      [[(⟨some "a", "x", "s", none, 0⟩ : RetrievedChunk)],
        [(⟨some "a", "y", "s", none, 0⟩ : RetrievedChunk)]].map Except.ok from rfl, h.2]
  rfl

/-- Counterexample to claim C5 as stated: with
`FINAL_MODEL_MAX_OUTPUT_TOKENS = 4096` and a `MAX_TOKENS` first
response, exactly one retry is issued, but its budget `4096` is not
strictly larger than the first attempt's `4096`. -/
theorem claim_C5_truncation_retry_counterexample :
    (finalGenerationWithRetry 4096 ⟨"first text", some "MAX_TOKENS"⟩
        (fun _ => ⟨"retry text", none⟩)).2 = [4096]
      ∧ ¬ (4096 < 4096) :=
  ⟨rfl, by omega⟩

/-- Claim C5, amended: a `MAX_TOKENS` first response triggers exactly
one retry whose budget is `max(configured, 4096)` — at least the
configured budget and strictly larger exactly when the configured
budget is below `4096` — and the retry's result (not the first
attempt's) is what proceeds; any other finish reason issues no retry
and keeps the first result. -/
theorem claim_C5_truncation_retry (cfg : Nat) (first : GenResult)
    (retryCall : Nat → GenResult) :
    (first.finishReason = some "MAX_TOKENS" →
        finalGenerationWithRetry cfg first retryCall =
            (retryCall (max cfg 4096), [max cfg 4096])
          ∧ cfg ≤ max cfg 4096
          ∧ 4096 ≤ max cfg 4096
          ∧ (cfg < 4096 → cfg < max cfg 4096)
          ∧ (4096 ≤ cfg → max cfg 4096 = cfg))
      ∧ (first.finishReason ≠ some "MAX_TOKENS" →
          finalGenerationWithRetry cfg first retryCall = (first, [])) := by
  constructor
  · intro h
    refine ⟨?_, le_max_left _ _, le_max_right _ _, fun hlt => ?_, fun hle => ?_⟩
    · simp only [finalGenerationWithRetry, if_pos h]
    · omega
    · exact Nat.max_eq_left hle
  · intro h
    simp only [finalGenerationWithRetry, if_neg h]

/-- Witness for (amended) claim C5 at the default configuration: a
`3072`-token budget retries once at `4096 > 3072` and the retry's text
is kept; a `STOP` finish reason issues no retry. -/
theorem claim_C5_truncation_retry_witness :
    finalGenerationWithRetry 3072 ⟨"cut off", some "MAX_TOKENS"⟩ (fun _ => ⟨"full", none⟩)
        = (⟨"full", none⟩, [4096])
      ∧ (3072 : Nat) < 4096
      ∧ finalGenerationWithRetry 3072 ⟨"done", some "STOP"⟩ (fun _ => ⟨"unused", none⟩)
          = (⟨"done", some "STOP"⟩, []) := by
  have h1 := (claim_C5_truncation_retry 3072 ⟨"cut off", some "MAX_TOKENS"⟩
    (fun _ => ⟨"full", none⟩)).1 rfl
  have h2 := (claim_C5_truncation_retry 3072 ⟨"done", some "STOP"⟩
    (fun _ => ⟨"unused", none⟩)).2 (by simp)
  exact ⟨by rw [h1.1]; rfl, by omega, h2⟩

/-- Counterexample to claim C6 as stated: the raw planner text
consisting only of a JSON object with a `needsCode` field parses, and
every other field is missing, yet `parsePlannerOutput` returns the
parsed `needsCode = false` mixed with defaults for the rest — a partial
mixture, not the full conservative default plan. -/
theorem claim_C6_planner_fallback_counterexample :
    parsePlannerOutput "\x7b\"needsCode\": false\x7d".data "Q"
        = ⟨false, true, true, ["Q"], false, ""⟩
      ∧ parsePlannerOutput "\x7b\"needsCode\": false\x7d".data "Q" ≠ conservativePlan "Q" :=
  ⟨rfl, by decide⟩

/-- Claim C6, amended: when JSON extraction fails, when `JSON.parse`
throws, or when it returns `null` (so that field access throws), the
full conservative default plan is returned; when a value parses, each
field falls back to its own default independently — `needsCode`,
`isHard`, `needsConversationContext` to `true`, `shouldShortCircuit` to
`false`, `directResponse` to the empty string, and `ragQueries` to
`[question]` exactly when the filtered string-entry list is empty —
while every well-typed field is kept as parsed. -/
theorem claim_C6_planner_fallback (raw : List Char) (q : String) :
    (extractJsonObject raw = none → parsePlannerOutput raw q = conservativePlan q)
      ∧ (∀ jt, extractJsonObject raw = some jt → jsonParse (String.mk jt) = none →
          parsePlannerOutput raw q = conservativePlan q)
      ∧ (∀ jt, extractJsonObject raw = some jt → jsonParse (String.mk jt) = some Json.null →
          parsePlannerOutput raw q = conservativePlan q)
      ∧ (∀ jt parsed, extractJsonObject raw = some jt →
          jsonParse (String.mk jt) = some parsed → parsed ≠ Json.null →
          parsePlannerOutput raw q = plannerCoerce parsed q)
      ∧ (∀ parsed : Json,
          ((∀ b, jsGet parsed "needsCode" ≠ some (Json.bool b)) →
            (plannerCoerce parsed q).needsCode = true)
          ∧ (∀ b, jsGet parsed "needsCode" = some (Json.bool b) →
              (plannerCoerce parsed q).needsCode = b)
          ∧ ((∀ b, jsGet parsed "isHard" ≠ some (Json.bool b)) →
              (plannerCoerce parsed q).isHard = true)
          ∧ (∀ b, jsGet parsed "isHard" = some (Json.bool b) →
              (plannerCoerce parsed q).isHard = b)
          ∧ ((∀ b, jsGet parsed "needsConversationContext" ≠ some (Json.bool b)) →
              (plannerCoerce parsed q).needsConversationContext = true)
          ∧ (∀ b, jsGet parsed "needsConversationContext" = some (Json.bool b) →
              (plannerCoerce parsed q).needsConversationContext = b)
          ∧ ((∀ b, jsGet parsed "shouldShortCircuit" ≠ some (Json.bool b)) →
              (plannerCoerce parsed q).shouldShortCircuit = false)
          ∧ (∀ b, jsGet parsed "shouldShortCircuit" = some (Json.bool b) →
              (plannerCoerce parsed q).shouldShortCircuit = b)
          ∧ ((∀ s, jsGet parsed "directResponse" ≠ some (Json.str s)) →
              (plannerCoerce parsed q).directResponse = "")
          ∧ (∀ s, jsGet parsed "directResponse" = some (Json.str s) →
              (plannerCoerce parsed q).directResponse = jsTrimStr s)
          ∧ (∀ qs, jsGet parsed "ragQueries" = some (Json.arr qs) →
              (plannerCoerce parsed q).ragQueries =
                if (ragQueryFilter qs).isEmpty then [q] else ragQueryFilter qs)
          ∧ ((∀ qs, jsGet parsed "ragQueries" ≠ some (Json.arr qs)) →
              (plannerCoerce parsed q).ragQueries = [q])) := by
  refine ⟨?_, ?_, ?_, ?_, ?_⟩
  · intro hext
    simp only [parsePlannerOutput, hext]
  · intro jt hext hparse
    simp only [parsePlannerOutput, hext, hparse]
  · intro jt hext hparse
    simp only [parsePlannerOutput, hext, hparse]
  · intro jt parsed hext hparse hnn
    cases parsed
    case null => exact absurd rfl hnn
    all_goals simp only [parsePlannerOutput, hext, hparse]
  · intro parsed
    refine ⟨?_, ?_, ?_, ?_, ?_, ?_, ?_, ?_, ?_, ?_, ?_, ?_⟩
    · intro hne
      rcases hg : jsGet parsed "needsCode" with _ | v
      · simp [plannerCoerce, hg]
      · cases v
        case bool b => exact absurd hg (hne b)
        all_goals simp [plannerCoerce, hg]
    · intro b hg
      simp [plannerCoerce, hg]
    · intro hne
      rcases hg : jsGet parsed "isHard" with _ | v
      · simp [plannerCoerce, hg]
      · cases v
        case bool b => exact absurd hg (hne b)
        all_goals simp [plannerCoerce, hg]
    · intro b hg
      simp [plannerCoerce, hg]
    · intro hne
      rcases hg : jsGet parsed "needsConversationContext" with _ | v
      · simp [plannerCoerce, hg]
      · cases v
        case bool b => exact absurd hg (hne b)
        all_goals simp [plannerCoerce, hg]
    · intro b hg
      simp [plannerCoerce, hg]
    · intro hne
      rcases hg : jsGet parsed "shouldShortCircuit" with _ | v
      · simp [plannerCoerce, hg]
      · cases v
        case bool b => exact absurd hg (hne b)
        all_goals simp [plannerCoerce, hg]
    · intro b hg
      simp [plannerCoerce, hg]
    · intro hne
      rcases hg : jsGet parsed "directResponse" with _ | v
      · simp [plannerCoerce, hg]
      · cases v
        case str s => exact absurd hg (hne s)
        all_goals simp [plannerCoerce, hg]
    · intro s hg
      simp [plannerCoerce, hg]
    · intro qs hg
      simp only [plannerCoerce, hg]
    · intro hne
      rcases hg : jsGet parsed "ragQueries" with _ | v
      · simp [plannerCoerce, hg, ragQueryFilter]
      · cases v
        case arr qs => exact absurd hg (hne qs)
        all_goals simp [plannerCoerce, hg, ragQueryFilter]

/-- Witness for (amended) claim C6 at concrete inputs: text without any
JSON yields the full default plan; a lone `isHard: false` object keeps
the parsed `isHard`, defaults `needsCode`, and falls back to the
question as the only retrieval query. -/
theorem claim_C6_planner_fallback_witness :
    parsePlannerOutput "no json at all".data "Q" = conservativePlan "Q"
      ∧ parsePlannerOutput "\x7b\"isHard\": false\x7d".data "Q"
          = plannerCoerce (Json.obj [("isHard", Json.bool false)]) "Q"
      ∧ (plannerCoerce (Json.obj [("isHard", Json.bool false)]) "Q").isHard = false
      ∧ (plannerCoerce (Json.obj [("isHard", Json.bool false)]) "Q").needsCode = true
      ∧ (plannerCoerce (Json.obj [("isHard", Json.bool false)]) "Q").ragQueries = ["Q"] := by
  have h := claim_C6_planner_fallback "\x7b\"isHard\": false\x7d".data "Q"
  have h5 := h.2.2.2.2 (Json.obj [("isHard", Json.bool false)])
  refine ⟨(claim_C6_planner_fallback "no json at all".data "Q").1 rfl,
    h.2.2.2.1 "\x7b\"isHard\": false\x7d".data (Json.obj [("isHard", Json.bool false)])
      rfl rfl (fun hc => Json.noConfusion hc),
    h5.2.2.2.1 false rfl,
    h5.1 (fun b hc => by
      rw [show jsGet (Json.obj [("isHard", Json.bool false)]) "needsCode" = none from rfl] at hc
      cases hc),
    h5.2.2.2.2.2.2.2.2.2.2.2 (fun qs hc => by
      rw [show jsGet (Json.obj [("isHard", Json.bool false)]) "ragQueries" = none from rfl] at hc
      cases hc)⟩

/-- The `ok` flag of `parseFinalModelOutput` implies a nonempty parsed
answer. -/
theorem parseFinalModelOutput_ok (raw : List Char) :
    (parseFinalModelOutput raw).ok = true → (parseFinalModelOutput raw).answer ≠ "" := by
  unfold parseFinalModelOutput
  rcases hext : extractJsonObject raw with _ | jt
  · simp [hext]
  · rcases hp : jsonParse (String.mk jt) with _ | v
    · simp [hext, hp]
    · cases v
      case null => simp [hext, hp]
      all_goals
        simp only [hext, hp]
        intro hok han
        rw [han] at hok
        simp at hok

/-- The string fallback chain `a || fb || APOLOGY`: never empty, and
each link is used exactly when all earlier links are empty. -/
theorem fallbackChain_spec (a fb : String) :
    jsStringOr (jsStringOr a fb) APOLOGY ≠ ""
      ∧ (a ≠ "" → jsStringOr (jsStringOr a fb) APOLOGY = a)
      ∧ (a = "" → fb ≠ "" → jsStringOr (jsStringOr a fb) APOLOGY = fb)
      ∧ (a = "" → fb = "" → jsStringOr (jsStringOr a fb) APOLOGY = APOLOGY) := by
  have hAp : APOLOGY ≠ "" := by decide
  by_cases ha : a = ""
  · subst ha
    have h1 : jsStringOr "" fb = fb := if_pos rfl
    by_cases hf : fb = ""
    · subst hf
      exact ⟨by rw [show jsStringOr (jsStringOr "" "") APOLOGY = APOLOGY from rfl]; exact hAp,
        fun h => absurd rfl h, fun _ h => absurd rfl h, fun _ _ => rfl⟩
    · have h2 : jsStringOr (jsStringOr "" fb) APOLOGY = fb := by
        rw [h1]
        exact if_neg hf
      exact ⟨by rw [h2]; exact hf, fun h => absurd rfl h, fun _ _ => h2,
        fun _ h => absurd h hf⟩
  · have h2 : jsStringOr (jsStringOr a fb) APOLOGY = a := by
      rw [show jsStringOr a fb = a from if_neg ha]
      exact if_neg ha
    exact ⟨by rw [h2]; exact ha, fun _ => h2, fun h => absurd h ha, fun h => absurd h ha⟩

/-- The final parse record kept by the repair step can only be `ok`
with a nonempty answer. -/
theorem computeVisibleAnswer_ok (finalAnswer : List Char)
    (repairOutcome : Option (List Char)) :
    (computeVisibleAnswer finalAnswer repairOutcome).2.ok = true →
      (computeVisibleAnswer finalAnswer repairOutcome).2.answer ≠ "" := by
  cases repairOutcome with
  | none =>
    by_cases hfo : (parseFinalModelOutput finalAnswer).ok = true
    · have hsnd : (computeVisibleAnswer finalAnswer none).2 =
          parseFinalModelOutput finalAnswer := by
        simp only [computeVisibleAnswer, if_pos hfo]
      rw [hsnd]
      exact parseFinalModelOutput_ok finalAnswer
    · have hsnd : (computeVisibleAnswer finalAnswer none).2 =
          parseFinalModelOutput finalAnswer := by
        simp only [computeVisibleAnswer, if_neg hfo]
      rw [hsnd]
      exact parseFinalModelOutput_ok finalAnswer
  | some rep =>
    by_cases hfo : (parseFinalModelOutput finalAnswer).ok = true
    · have hsnd : (computeVisibleAnswer finalAnswer (some rep)).2 =
          parseFinalModelOutput finalAnswer := by
        simp only [computeVisibleAnswer, if_pos hfo]
      rw [hsnd]
      exact parseFinalModelOutput_ok finalAnswer
    · have hsnd : (computeVisibleAnswer finalAnswer (some rep)).2 =
          parseFinalModelOutput rep := by
        simp only [computeVisibleAnswer, if_neg hfo]
      rw [hsnd]
      exact parseFinalModelOutput_ok rep

/-- Claim C9: answer fallback chain.  For every raw final-model text
and every repair outcome, the visible answer is a non-empty string: the
(possibly repaired) parsed answer when it is nonempty — in particular
whenever the parse was ok — else the regex-extracted unescaped
`answer` text, else the punctuation-stripped text, else the fixed
apology; it is always one of these three model-derived strings, never
anything else. -/
theorem claim_C9_answer_fallback_chain (finalAnswer : List Char)
    (repairOutcome : Option (List Char)) :
    (computeVisibleAnswer finalAnswer repairOutcome).1 ≠ ""
      ∧ ((computeVisibleAnswer finalAnswer repairOutcome).2.answer ≠ "" →
          (computeVisibleAnswer finalAnswer repairOutcome).1 =
            (computeVisibleAnswer finalAnswer repairOutcome).2.answer)
      ∧ ((computeVisibleAnswer finalAnswer repairOutcome).2.answer = "" →
          String.mk (extractAnswerFallbackText finalAnswer) ≠ "" →
          (computeVisibleAnswer finalAnswer repairOutcome).1 =
            String.mk (extractAnswerFallbackText finalAnswer))
      ∧ ((computeVisibleAnswer finalAnswer repairOutcome).2.answer = "" →
          String.mk (extractAnswerFallbackText finalAnswer) = "" →
          (computeVisibleAnswer finalAnswer repairOutcome).1 = APOLOGY)
      ∧ ((computeVisibleAnswer finalAnswer repairOutcome).2.ok = true →
          (computeVisibleAnswer finalAnswer repairOutcome).1 =
            (computeVisibleAnswer finalAnswer repairOutcome).2.answer)
      ∧ ((computeVisibleAnswer finalAnswer repairOutcome).1 =
            (computeVisibleAnswer finalAnswer repairOutcome).2.answer
          ∨ (computeVisibleAnswer finalAnswer repairOutcome).1 =
              String.mk (extractAnswerFallbackText finalAnswer)
          ∨ (computeVisibleAnswer finalAnswer repairOutcome).1 = APOLOGY) := by
  obtain ⟨h1, h2, h3, h4⟩ := fallbackChain_spec
    (computeVisibleAnswer finalAnswer repairOutcome).2.answer
    (String.mk (extractAnswerFallbackText finalAnswer))
  have hfst : (computeVisibleAnswer finalAnswer repairOutcome).1 =
      jsStringOr (jsStringOr (computeVisibleAnswer finalAnswer repairOutcome).2.answer
        (String.mk (extractAnswerFallbackText finalAnswer))) APOLOGY := rfl
  refine ⟨by rw [hfst]; exact h1, fun h => by rw [hfst]; exact h2 h,
    fun h hf => by rw [hfst]; exact h3 h hf,
    fun h hf => by rw [hfst]; exact h4 h hf,
    fun hok => by
      rw [hfst]
      exact h2 (computeVisibleAnswer_ok finalAnswer repairOutcome hok), ?_⟩
  by_cases hane : (computeVisibleAnswer finalAnswer repairOutcome).2.answer = ""
  · by_cases hfbe : String.mk (extractAnswerFallbackText finalAnswer) = ""
    · exact Or.inr (Or.inr (by rw [hfst]; exact h4 hane hfbe))
    · exact Or.inr (Or.inl (by rw [hfst]; exact h3 hane hfbe))
  · exact Or.inl (by rw [hfst]; exact h2 hane)

/-- Witness for claim C9 at a concrete input: a final-model text with
no extractable JSON and no salvageable text yields exactly the fixed
apology, which is non-empty. -/
theorem claim_C9_answer_fallback_chain_witness :
    (computeVisibleAnswer "[]".data none).1 = APOLOGY
      ∧ (computeVisibleAnswer "[]".data none).1 ≠ "" := by
  have h := claim_C9_answer_fallback_chain "[]".data none
  exact ⟨h.2.2.2.1 rfl rfl, h.1⟩

/-- Splitting off a `takeWhile` prefix and dropping its length is the
identity. -/
theorem takeWhile_append_drop_self (p : Char → Bool) (cs : List Char) :
    cs.takeWhile p ++ cs.drop (cs.takeWhile p).length = cs := by
  have h := List.prefix_iff_eq_take.mp (List.takeWhile_prefix p (l := cs))
  conv_rhs => rw [← List.take_append_drop (cs.takeWhile p).length cs]
  rw [← h]

/-- Splitting off a `take` prefix and dropping its length is the
identity. -/
theorem take_append_drop_self (k : Nat) (cs : List Char) :
    cs.take k ++ cs.drop (cs.take k).length = cs := by
  have h := List.prefix_iff_eq_take.mp (List.take_prefix k cs)
  conv_rhs => rw [← List.take_append_drop (cs.take k).length cs]
  rw [← h]

/-- A `takeWhile` over a list all of whose members satisfy the
condition is the identity. -/
theorem takeWhile_all (p : Char → Bool) :
    ∀ l : List Char, (∀ c ∈ l, p c = true) → l.takeWhile p = l := by
  intro l
  induction l with
  | nil => intro _; rfl
  | cons a t ih =>
    intro h
    rw [List.takeWhile_cons_of_pos (h a (List.mem_cons_self a t)),
      ih (fun c hc => h c (List.mem_cons_of_mem a hc))]

/-- The regex matches lose no characters of a piece the dot can match
throughout. -/
theorem chunk120Go_flatten : ∀ fuel cs, cs.length ≤ fuel →
    (∀ c ∈ cs, jsDotChar c = true) → (chunk120Go fuel cs).flatten = cs := by
  intro fuel
  induction fuel with
  | zero =>
    intro cs hlen _
    have hnil : cs = [] := List.eq_nil_of_length_eq_zero (Nat.le_zero.mp hlen)
    subst hnil
    rfl
  | succ fuel ih =>
    intro cs hlen hdot
    cases cs with
    | nil => rfl
    | cons c rest =>
      have hc : jsDotChar c = true := hdot c (List.mem_cons_self c rest)
      have hTW : (c :: rest).takeWhile jsDotChar = c :: rest :=
        takeWhile_all jsDotChar (c :: rest) hdot
      simp only [chunk120Go, hc, if_true, hTW, List.flatten_cons]
      rw [ih ((c :: rest).drop ((c :: rest).take 120).length)
        (by
          simp only [List.length_drop, List.length_take, List.length_cons]
          simp only [List.length_cons] at hlen
          omega)
        (fun x hx => hdot x (List.mem_of_mem_drop hx))]
      exact take_append_drop_self 120 (c :: rest)

/-- `chunk120` loses no characters of a piece the dot can match
throughout. -/
theorem chunk120_flatten (cs : List Char)
    (hdot : ∀ c ∈ cs, jsDotChar c = true) : (chunk120 cs).flatten = cs := by
  simp only [chunk120]
  by_cases h : (chunk120Go cs.length cs).isEmpty
  · rw [if_pos h]
    simp
  · rw [if_neg h]
    exact chunk120Go_flatten cs.length cs le_rfl hdot

/-- The newline-run split loses no characters. -/
theorem splitNewlineRunsGo_flatten : ∀ fuel cs, (splitNewlineRunsGo fuel cs).flatten = cs := by
  intro fuel
  induction fuel with
  | zero => intro cs; simp [splitNewlineRunsGo]
  | succ fuel ih =>
    intro cs
    simp only [splitNewlineRunsGo]
    by_cases h : (cs.drop (cs.takeWhile (fun c => ¬ c = '\n')).length).isEmpty
    · rw [if_pos h]
      have h0 := takeWhile_append_drop_self (fun c => decide (¬ c = '\n')) cs
      rw [List.isEmpty_iff.mp h, List.append_nil] at h0
      simpa using h0
    · rw [if_neg h]
      simp only [List.flatten_cons, ih]
      rw [takeWhile_append_drop_self (fun c => decide (c = '\n'))
        (cs.drop (cs.takeWhile (fun c => ¬ c = '\n')).length)]
      exact takeWhile_append_drop_self _ cs

/-- Dropping empty pieces does not change the concatenation. -/
theorem flatten_filter_nonempty (L : List (List Char)) :
    (L.filter (fun part => 0 < part.length)).flatten = L.flatten := by
  induction L with
  | nil => rfl
  | cons x xs ih =>
    by_cases hx : 0 < x.length
    · simp [List.filter_cons, hx, ih]
    · have hx0 : x = [] := by
        cases x
        · rfl
        · simp at hx
      subst hx0
      simp [List.filter_cons, ih]

/-- The head of a `dropWhile` result fails the condition. -/
theorem dropWhile_head_not (p : Char → Bool) :
    ∀ (l : List Char) (c : Char) (t : List Char),
      l.dropWhile p = c :: t → p c = false := by
  intro l
  induction l with
  | nil =>
    intro c t h
    simp [List.dropWhile] at h
  | cons a l ih =>
    intro c t h
    rw [List.dropWhile_cons] at h
    by_cases hp : p a = true
    · rw [if_pos hp] at h
      exact ih c t h
    · rw [if_neg hp] at h
      injection h with h1 _
      subst h1
      exact Bool.eq_false_iff.mpr hp

/-- Trimming a list of whitespace characters leaves nothing. -/
theorem jsTrim_all_ws (l : List Char) (h : ∀ c ∈ l, jsWhitespaceChar c = true) :
    (jsTrim l).isEmpty = true := by
  have h1 : l.dropWhile jsWhitespaceChar = [] := by
    rw [List.dropWhile_eq_nil_iff]
    intro x hx
    exact h x hx
  simp [jsTrim, h1]

/-- Every piece produced by the newline-run split is either blank or
made of characters the dot regex matches, provided the input has no
line terminators other than the newlines themselves. -/
theorem splitNewlineRunsGo_parts : ∀ fuel cs, cs.length ≤ fuel →
    (∀ c ∈ cs, c = '\n' ∨ jsDotChar c = true) →
    ∀ part ∈ splitNewlineRunsGo fuel cs,
      (jsTrim part).isEmpty = true ∨ ∀ c ∈ part, jsDotChar c = true := by
  intro fuel
  induction fuel with
  | zero =>
    intro cs hlen _ part hpart
    have hnil : cs = [] := List.eq_nil_of_length_eq_zero (Nat.le_zero.mp hlen)
    subst hnil
    simp only [splitNewlineRunsGo, List.mem_singleton] at hpart
    subst hpart
    left
    rfl
  | succ fuel ih =>
    intro cs hlen h part hpart
    have hpre : ∀ c ∈ cs.takeWhile (fun c => decide (¬ c = '\n')), jsDotChar c = true := by
      intro c hc
      have hcs : c ∈ cs := (List.takeWhile_prefix _).sublist.subset hc
      have hp := List.mem_takeWhile_imp hc
      have hne : c ≠ '\n' := by simpa using hp
      rcases h c hcs with h1 | h2
      · exact absurd h1 hne
      · exact h2
    simp only [splitNewlineRunsGo] at hpart
    by_cases hrest :
        (cs.drop ((cs.takeWhile (fun c => decide (¬ c = '\n'))).length)).isEmpty = true
    · rw [if_pos hrest, List.mem_singleton] at hpart
      subst hpart
      exact Or.inr hpre
    · rw [if_neg hrest] at hpart
      simp only [List.mem_cons] at hpart
      rcases hpart with hp1 | hp2 | hp3
      · subst hp1
        exact Or.inr hpre
      · subst hp2
        left
        apply jsTrim_all_ws
        intro c hc
        have hp := List.mem_takeWhile_imp hc
        have hcn : c = '\n' := by simpa using hp
        subst hcn
        rfl
      · refine ih _ ?_ (fun c hc => h c (List.mem_of_mem_drop (List.mem_of_mem_drop hc)))
          part hp3
        have hrd : cs.drop ((cs.takeWhile (fun c => decide (¬ c = '\n'))).length)
            = cs.dropWhile (fun c => decide (¬ c = '\n')) :=
          List.append_cancel_left
            ((takeWhile_append_drop_self (fun c => decide (¬ c = '\n')) cs).trans
              (List.takeWhile_append_dropWhile
                (p := fun c => decide (¬ c = '\n')) (l := cs)).symm)
        obtain ⟨c0, t0, hr⟩ : ∃ c0 t0,
            cs.drop ((cs.takeWhile (fun c => decide (¬ c = '\n'))).length) = c0 :: t0 := by
          rcases hrec : cs.drop ((cs.takeWhile (fun c => decide (¬ c = '\n'))).length) with
            _ | ⟨a, b⟩
          · rw [hrec] at hrest
            exact absurd rfl hrest
          · exact ⟨a, b, rfl⟩
        have hq0 : (fun c => decide (¬ c = '\n')) c0 = false :=
          dropWhile_head_not _ cs c0 t0 (hrd.symm.trans hr)
        have hc0 : c0 = '\n' := by simpa using hq0
        have hrun1 : 1 ≤ ((cs.drop ((cs.takeWhile
            (fun c => decide (¬ c = '\n'))).length)).takeWhile
              (fun c => decide (c = '\n'))).length := by
          rw [hr, List.takeWhile_cons_of_pos (by simp [hc0])]
          simp
        simp only [List.length_drop, List.length_cons] at hlen ⊢
        omega

/-- The streaming split loses no characters when the visible text has
no line terminators other than newlines (the regex `.` drops any stray
carriage return or Unicode line separator from non-blank pieces). -/
theorem splitForStream_flatten (text : List Char)
    (h : ∀ c ∈ text, c = '\n' ∨ jsDotChar c = true) :
    (splitForStream text).flatten = text := by
  unfold splitForStream
  rw [flatten_filter_nonempty]
  have hparts : ∀ part ∈ splitNewlineRuns text,
      (jsTrim part).isEmpty = true ∨ ∀ c ∈ part, jsDotChar c = true :=
    splitNewlineRunsGo_parts text.length text le_rfl h
  have h2 : ∀ (L : List (List Char)),
      (∀ part ∈ L, (jsTrim part).isEmpty = true ∨ ∀ c ∈ part, jsDotChar c = true) →
      (L.flatMap (fun part =>
        if (jsTrim part).isEmpty then [part] else chunk120 part)).flatten = L.flatten := by
    intro L
    induction L with
    | nil => intro _; rfl
    | cons x xs ih =>
      intro hL
      simp only [List.flatMap_cons, List.flatten_append,
        ih (fun p hp => hL p (List.mem_cons_of_mem x hp))]
      by_cases hx : (jsTrim x).isEmpty
      · simp [hx]
      · rcases hL x (List.mem_cons_self x xs) with h1 | h2
        · exact absurd h1 hx
        · simp [hx, chunk120_flatten x h2]
  rw [h2 (splitNewlineRuns text) hparts]
  exact splitNewlineRunsGo_flatten _ _

/-- Shifting an occurrence across a cons cell. -/
theorem occursAt_cons (pat : List Char) (c : Char) (t : List Char) (p : Nat) :
    occursAt pat (c :: t) (p + 1) ↔ occursAt pat t p := Iff.rfl

/-- An occurrence at position zero is exactly a prefix. -/
theorem occursAt_zero (pat l : List Char) :
    occursAt pat l 0 ↔ List.isPrefixOf pat l = true := by
  rw [occursAt, List.drop_zero, List.isPrefixOf_iff_prefix, List.prefix_iff_eq_take]
  exact ⟨fun h => h.symm, fun h => h.symm⟩

/-- `findSubIdx` returning `none` means no occurrence anywhere. -/
theorem findSubIdx_none_not_occurs (pat : List Char) :
    ∀ l, findSubIdx pat l = none → ∀ p, ¬ occursAt pat l p := by
  intro l
  induction l with
  | nil =>
    intro h p hocc
    by_cases hp : pat.isEmpty
    · simp [findSubIdx, hp] at h
    · have hnil : pat = [] := by
        have h0 := hocc
        rw [occursAt, List.drop_nil, List.take_nil] at h0
        exact h0.symm
      rw [hnil] at hp
      simp at hp
  | cons c t ih =>
    intro h p hocc
    by_cases hpre : List.isPrefixOf pat (c :: t) = true
    · simp [findSubIdx, hpre] at h
    · have ht : findSubIdx pat t = none := by
        rcases hft : findSubIdx pat t with _ | i
        · rfl
        · simp [findSubIdx, hpre, hft] at h
      cases p with
      | zero => exact hpre ((occursAt_zero pat (c :: t)).mp hocc)
      | succ p' => exact ih ht p' ((occursAt_cons pat c t p').mp hocc)

/-- `findSubIdx` finds a real occurrence. -/
theorem findSubIdx_some_occurs (pat : List Char) :
    ∀ l i, findSubIdx pat l = some i → occursAt pat l i := by
  intro l
  induction l with
  | nil =>
    intro i h
    by_cases hp : pat.isEmpty
    · simp only [findSubIdx, hp, if_pos] at h
      cases h
      rw [occursAt, List.drop_nil, List.take_nil]
      exact (List.isEmpty_iff.mp hp).symm
    · simp [findSubIdx, hp] at h
  | cons c t ih =>
    intro i h
    by_cases hpre : List.isPrefixOf pat (c :: t) = true
    · simp only [findSubIdx, hpre, if_pos] at h
      cases h
      exact (occursAt_zero pat (c :: t)).mpr hpre
    · rcases hft : findSubIdx pat t with _ | j
      · simp [findSubIdx, hpre, hft] at h
      · simp only [findSubIdx, hpre, if_neg, hft, Option.map_some'] at h
        cases h
        exact (occursAt_cons pat c t j).mpr (ih j hft)

/-- `findSubIdx` finds the first occurrence. -/
theorem findSubIdx_some_min (pat : List Char) :
    ∀ l i, findSubIdx pat l = some i → ∀ j, j < i → ¬ occursAt pat l j := by
  intro l
  induction l with
  | nil =>
    intro i h j hj hocc
    by_cases hp : pat.isEmpty
    · simp only [findSubIdx, hp, if_pos] at h
      cases h
      omega
    · simp [findSubIdx, hp] at h
  | cons c t ih =>
    intro i h j hj hocc
    by_cases hpre : List.isPrefixOf pat (c :: t) = true
    · simp only [findSubIdx, hpre, if_pos] at h
      cases h
      omega
    · rcases hft : findSubIdx pat t with _ | k
      · simp [findSubIdx, hpre, hft] at h
      · simp only [findSubIdx, hpre, if_neg, hft, Option.map_some'] at h
        cases h
        cases j with
        | zero => exact hpre ((occursAt_zero pat (c :: t)).mp hocc)
        | succ j' =>
          exact ih k hft j' (by omega) ((occursAt_cons pat c t j').mp hocc)

/-- Any occurrence bounds the first occurrence from above. -/
theorem occurs_le_findSubIdx (pat : List Char) :
    ∀ l p, occursAt pat l p → ∃ i, findSubIdx pat l = some i ∧ i ≤ p := by
  intro l
  induction l with
  | nil =>
    intro p hocc
    by_cases hp : pat.isEmpty
    · exact ⟨0, by simp [findSubIdx, hp], Nat.zero_le _⟩
    · have hnil : pat = [] := by
        have h0 := hocc
        rw [occursAt, List.drop_nil, List.take_nil] at h0
        exact h0.symm
      rw [hnil] at hp
      simp at hp
  | cons c t ih =>
    intro p hocc
    by_cases hpre : List.isPrefixOf pat (c :: t) = true
    · exact ⟨0, by simp [findSubIdx, hpre], Nat.zero_le _⟩
    · cases p with
      | zero => exact absurd ((occursAt_zero pat (c :: t)).mp hocc) hpre
      | succ p' =>
        obtain ⟨i, hi, hle⟩ := ih p' ((occursAt_cons pat c t p').mp hocc)
        exact ⟨i + 1, by simp [findSubIdx, hpre, hi], by omega⟩

/-- Characterization: an occurrence below which there is none is the
result of `findSubIdx`. -/
theorem findSubIdx_first (pat l : List Char) (p : Nat)
    (hocc : occursAt pat l p) (hmin : ∀ j, j < p → ¬ occursAt pat l j) :
    findSubIdx pat l = some p := by
  obtain ⟨i, hi, hle⟩ := occurs_le_findSubIdx pat l p hocc
  rcases Nat.lt_or_ge i p with hlt | hge
  · exact absurd (findSubIdx_some_occurs pat l i hi) (hmin i hlt)
  · have hip : i = p := le_antisymm hle hge
    rw [← hip]
    exact hi

/-- An occurrence fully inside the left part of an append is an
occurrence in that part. -/
theorem occursAt_append_inner (pat a b : List Char) (p : Nat)
    (h : occursAt pat (a ++ b) p) (hle : p + pat.length ≤ a.length) : occursAt pat a p := by
  rw [occursAt, List.drop_append_eq_append_drop,
    Nat.sub_eq_zero_of_le (by omega : p ≤ a.length), List.drop_zero,
    List.take_append_eq_append_take,
    Nat.sub_eq_zero_of_le (by rw [List.length_drop]; omega), List.take_zero,
    List.append_nil] at h
  exact h

/-- An occurrence pins every pattern character. -/
theorem occursAt_get (pat l : List Char) (p k : Nat) (h : occursAt pat l p)
    (hk : k < pat.length) : l.get? (p + k) = pat.get? k := by
  rw [occursAt] at h
  rw [← h, List.get?_take hk, List.get?_drop]

/-- Position of a newline-free pattern placed after two newlines: if it
does not occur in the preceding text, its first occurrence in the
assembled stream is exactly after the text and the two newlines. -/
theorem findSubIdx_after_newlines (pat visible tail : List Char)
    (hnl : '\n' ∉ pat) (hne : pat ≠ [])
    (hvis : findSubIdx pat visible = none) :
    findSubIdx pat (visible ++ '\n' :: '\n' :: (pat ++ tail)) = some (visible.length + 2) := by
  apply findSubIdx_first
  · rw [occursAt]
    have hdrop : (visible ++ '\n' :: '\n' :: (pat ++ tail)).drop (visible.length + 2)
        = pat ++ tail := by
      rw [List.drop_append]
      rfl
    rw [hdrop, List.take_left]
  · intro j hj hocc
    by_cases hin : j + pat.length ≤ visible.length
    · exact findSubIdx_none_not_occurs pat visible hvis j
        (occursAt_append_inner pat visible _ j hocc hin)
    · push_neg at hin
      have hplen : 1 ≤ pat.length := by
        cases pat
        · exact absurd rfl hne
        · simp
      rcases Nat.lt_or_ge j (visible.length + 1) with hj1 | hj2
      · have hk : visible.length - j < pat.length := by omega
        have hget := occursAt_get pat _ j (visible.length - j) hocc hk
        have hstream : (visible ++ '\n' :: '\n' :: (pat ++ tail)).get? (j + (visible.length - j))
            = some '\n' := by
          have hj' : j + (visible.length - j) = visible.length := by omega
          rw [hj', List.get?_append_right (le_refl _)]
          simp
        rw [hstream] at hget
        exact hnl (List.get?_mem hget.symm)
      · have hj' : j = visible.length + 1 := by omega
        have hget := occursAt_get pat _ j 0 hocc (by omega)
        have hstream : (visible ++ '\n' :: '\n' :: (pat ++ tail)).get? (j + 0) = some '\n' := by
          rw [Nat.add_zero, hj', List.get?_append_right (by omega)]
          simp
        rw [hstream] at hget
        exact hnl (List.get?_mem hget.symm)

/-- Position of an aperiodic pattern appended after text not containing
it: the first occurrence is exactly at the text's length. -/
theorem findSubIdx_self_append (pat a : List Char) (hne : pat ≠ [])
    (ha : findSubIdx pat a = none)
    (hper : ∀ d, d < pat.length → 0 < d →
      ¬ (List.isPrefixOf (pat.drop d) pat = true)) :
    findSubIdx pat (a ++ pat) = some a.length := by
  apply findSubIdx_first
  · rw [occursAt, List.drop_left]
    exact List.take_length pat
  · intro j hj hocc
    by_cases hin : j + pat.length ≤ a.length
    · exact findSubIdx_none_not_occurs pat a ha j
        (occursAt_append_inner pat a pat j hocc hin)
    · push_neg at hin
      have hplen : 1 ≤ pat.length := by
        cases pat
        · exact absurd rfl hne
        · simp
      have hd1 : 0 < a.length - j := by omega
      have hd2 : a.length - j < pat.length := by omega
      apply hper (a.length - j) hd2 hd1
      rw [List.isPrefixOf_iff_prefix]
      have h1 : pat.drop (a.length - j) =
          ((a ++ pat).drop (j + (a.length - j))).take (pat.length - (a.length - j)) := by
        conv_lhs => rw [← hocc]
        rw [occursAt] at hocc
        rw [List.drop_take, List.drop_drop]
      have h2 : (a ++ pat).drop (j + (a.length - j)) = pat := by
        have hj0 : j + (a.length - j) = a.length := by omega
        rw [hj0, List.drop_left]
      rw [h2] at h1
      rw [h1]
      exact List.take_prefix _ _

/-- The start sentinel contains no newline. -/
theorem newline_not_mem_startSentinel : '\n' ∉ RAG_CONTEXT_START := by decide

/-- The start sentinel is nonempty. -/
theorem startSentinel_ne_nil : RAG_CONTEXT_START ≠ [] := by decide

/-- The end sentinel has no nontrivial period: no proper tail of it is
one of its prefixes, so no occurrence can straddle into it. -/
theorem endSentinel_aperiodic : ∀ d, d < RAG_CONTEXT_END.length → 0 < d →
    ¬ (List.isPrefixOf (RAG_CONTEXT_END.drop d) RAG_CONTEXT_END = true) := by decide

/-- The end sentinel is nonempty. -/
theorem endSentinel_ne_nil : RAG_CONTEXT_END ≠ [] := by decide

/-- `hexVal` inverts `hexDigit` on nibbles. -/
theorem hexVal_hexDigit : ∀ m, m < 16 → hexVal (hexDigit m) = some m := by decide

/-- Step equation: closing quote. -/
theorem psb_quote (rest : List Char) : parseStringBody ('"' :: rest) = some ([], rest) := by
  rcases rest with _ | ⟨x1, _ | ⟨x2, _ | ⟨x3, _ | ⟨x4, _ | ⟨x5, r⟩⟩⟩⟩⟩ <;> rfl

/-- Step equation: `\n` escape. -/
theorem psb_esc_n (rest : List Char) : parseStringBody ('\\' :: 'n' :: rest) =
    (parseStringBody rest).map (fun p => ('\n' :: p.1, p.2)) := by
  rcases rest with _ | ⟨x1, _ | ⟨x2, _ | ⟨x3, _ | ⟨x4, _ | ⟨x5, r⟩⟩⟩⟩⟩ <;> rfl

/-- Step equation: `\t` escape. -/
theorem psb_esc_t (rest : List Char) : parseStringBody ('\\' :: 't' :: rest) =
    (parseStringBody rest).map (fun p => ('\t' :: p.1, p.2)) := by
  rcases rest with _ | ⟨x1, _ | ⟨x2, _ | ⟨x3, _ | ⟨x4, _ | ⟨x5, r⟩⟩⟩⟩⟩ <;> rfl

/-- Step equation: `\r` escape. -/
theorem psb_esc_r (rest : List Char) : parseStringBody ('\\' :: 'r' :: rest) =
    (parseStringBody rest).map (fun p => ('\r' :: p.1, p.2)) := by
  rcases rest with _ | ⟨x1, _ | ⟨x2, _ | ⟨x3, _ | ⟨x4, _ | ⟨x5, r⟩⟩⟩⟩⟩ <;> rfl

/-- Step equation: `\b` escape. -/
theorem psb_esc_b (rest : List Char) : parseStringBody ('\\' :: 'b' :: rest) =
    (parseStringBody rest).map (fun p => ('\x08' :: p.1, p.2)) := by
  rcases rest with _ | ⟨x1, _ | ⟨x2, _ | ⟨x3, _ | ⟨x4, _ | ⟨x5, r⟩⟩⟩⟩⟩ <;> rfl

/-- Step equation: `\f` escape. -/
theorem psb_esc_f (rest : List Char) : parseStringBody ('\\' :: 'f' :: rest) =
    (parseStringBody rest).map (fun p => ('\x0c' :: p.1, p.2)) := by
  rcases rest with _ | ⟨x1, _ | ⟨x2, _ | ⟨x3, _ | ⟨x4, _ | ⟨x5, r⟩⟩⟩⟩⟩ <;> rfl

/-- Step equation: escaped quote. -/
theorem psb_esc_q (rest : List Char) : parseStringBody ('\\' :: '"' :: rest) =
    (parseStringBody rest).map (fun p => ('"' :: p.1, p.2)) := by
  rcases rest with _ | ⟨x1, _ | ⟨x2, _ | ⟨x3, _ | ⟨x4, _ | ⟨x5, r⟩⟩⟩⟩⟩ <;> rfl

/-- Step equation: escaped backslash. -/
theorem psb_esc_bs (rest : List Char) : parseStringBody ('\\' :: '\\' :: rest) =
    (parseStringBody rest).map (fun p => ('\\' :: p.1, p.2)) := by
  rcases rest with _ | ⟨x1, _ | ⟨x2, _ | ⟨x3, _ | ⟨x4, _ | ⟨x5, r⟩⟩⟩⟩⟩ <;> rfl

/-- Step equation: `\u` escape. -/
theorem psb_esc_u (a b c d : Char) (rest : List Char) :
    parseStringBody ('\\' :: 'u' :: a :: b :: c :: d :: rest) =
      (match hexVal a, hexVal b, hexVal c, hexVal d with
      | some va, some vb, some vc, some vd =>
        if (((va * 16 + vb) * 16 + vc) * 16 + vd).isValidChar then
          (parseStringBody rest).map
            (fun p => (Char.ofNat ((((va * 16 + vb) * 16 + vc) * 16 + vd)) :: p.1, p.2))
        else none
      | _, _, _, _ => none) := rfl

/-- Step equation: ordinary character. -/
theorem psb_ord (c : Char) (rest : List Char) (h1 : ¬ c = '"') (h2 : ¬ c = '\\')
    (h3 : ¬ c.toNat < 0x20) :
    parseStringBody (c :: rest) = (parseStringBody rest).map (fun p => (c :: p.1, p.2)) := by
  rcases rest with _ | ⟨x1, _ | ⟨x2, _ | ⟨x3, _ | ⟨x4, _ | ⟨x5, r⟩⟩⟩⟩⟩ <;>
    (simp only [parseStringBody]; rw [if_neg h1, if_neg h2, if_neg h3])

/-- Round trip of `JSON.stringify` string escaping through the string
literal parser: parsing the escaped characters followed by a closing
quote yields back the characters. -/
theorem parseStringBody_enc : ∀ (cs : List Char) (rest : List Char),
    parseStringBody (cs.flatMap jsonEscapeChar ++ '"' :: rest) = some (cs, rest) := by
  intro cs
  induction cs with
  | nil =>
    intro rest
    simp only [List.flatMap_nil, List.nil_append]
    exact psb_quote rest
  | cons c cs ih =>
    intro rest
    by_cases h1 : c = '"'
    · subst h1
      rw [List.flatMap_cons, show jsonEscapeChar '"' = ['\\', '"'] from rfl]
      simp only [List.cons_append, List.nil_append]
      rw [psb_esc_q, ih]
      rfl
    · by_cases h2 : c = '\\'
      · subst h2
        rw [List.flatMap_cons, show jsonEscapeChar '\\' = ['\\', '\\'] from rfl]
        simp only [List.cons_append, List.nil_append]
        rw [psb_esc_bs, ih]
        rfl
      · by_cases h3 : c = '\n'
        · subst h3
          rw [List.flatMap_cons, show jsonEscapeChar '\n' = ['\\', 'n'] from rfl]
          simp only [List.cons_append, List.nil_append]
          rw [psb_esc_n, ih]
          rfl
        · by_cases h4 : c = '\r'
          · subst h4
            rw [List.flatMap_cons, show jsonEscapeChar '\r' = ['\\', 'r'] from rfl]
            simp only [List.cons_append, List.nil_append]
            rw [psb_esc_r, ih]
            rfl
          · by_cases h5 : c = '\t'
            · subst h5
              rw [List.flatMap_cons, show jsonEscapeChar '\t' = ['\\', 't'] from rfl]
              simp only [List.cons_append, List.nil_append]
              rw [psb_esc_t, ih]
              rfl
            · by_cases h6 : c = '\x08'
              · subst h6
                rw [List.flatMap_cons, show jsonEscapeChar '\x08' = ['\\', 'b'] from rfl]
                simp only [List.cons_append, List.nil_append]
                rw [psb_esc_b, ih]
                rfl
              · by_cases h7 : c = '\x0c'
                · subst h7
                  rw [List.flatMap_cons, show jsonEscapeChar '\x0c' = ['\\', 'f'] from rfl]
                  simp only [List.cons_append, List.nil_append]
                  rw [psb_esc_f, ih]
                  rfl
                · by_cases h8 : c.toNat < 0x20
                  · have henc : jsonEscapeChar c =
                        ['\\', 'u', '0', '0', hexDigit (c.toNat / 16),
                          hexDigit (c.toNat % 16)] := by
                      simp [jsonEscapeChar, h1, h2, h3, h4, h5, h6, h7, h8]
                    rw [List.flatMap_cons, henc]
                    simp only [List.cons_append, List.nil_append]
                    rw [psb_esc_u]
                    rw [show hexVal '0' = some 0 from rfl,
                      hexVal_hexDigit (c.toNat / 16) (by omega),
                      hexVal_hexDigit (c.toNat % 16) (by omega)]
                    dsimp only
                    have hn : ((0 * 16 + 0) * 16 + c.toNat / 16) * 16 + c.toNat % 16
                        = c.toNat := by omega
                    rw [hn]
                    have hv : (c.toNat).isValidChar := Or.inl (by omega)
                    rw [if_pos hv, ih]
                    simp [Char.ofNat_toNat]
                  · have henc : jsonEscapeChar c = [c] := by
                      simp [jsonEscapeChar, h1, h2, h3, h4, h5, h6, h7, h8]
                    rw [List.flatMap_cons, henc]
                    simp only [List.cons_append, List.nil_append]
                    rw [psb_ord c _ h1 h2 h8, ih]
                    rfl

/-- Skipping whitespace stops at a non-whitespace head. -/
theorem skipWs_cons_neg (c : Char) (t : List Char) (h : isJsonWs c = false) :
    skipWs (c :: t) = c :: t := by
  simp [skipWs, List.dropWhile_cons, h]

/-- The quoted `title` key parses to its characters. -/
theorem psb_key_title (rest : List Char) :
    parseStringBody ('t' :: 'i' :: 't' :: 'l' :: 'e' :: '"' :: rest)
      = some (['t', 'i', 't', 'l', 'e'], rest) := by
  rcases rest with _ | ⟨x1, _ | ⟨x2, _ | ⟨x3, _ | ⟨x4, _ | ⟨x5, r⟩⟩⟩⟩⟩ <;> rfl

/-- The quoted `url` key parses to its characters. -/
theorem psb_key_url (rest : List Char) :
    parseStringBody ('u' :: 'r' :: 'l' :: '"' :: rest) = some (['u', 'r', 'l'], rest) := by
  rcases rest with _ | ⟨x1, _ | ⟨x2, _ | ⟨x3, _ | ⟨x4, _ | ⟨x5, r⟩⟩⟩⟩⟩ <;> rfl

/-- The quoted `excerpt` key parses to its characters. -/
theorem psb_key_excerpt (rest : List Char) :
    parseStringBody ('e' :: 'x' :: 'c' :: 'e' :: 'r' :: 'p' :: 't' :: '"' :: rest)
      = some (['e', 'x', 'c', 'e', 'r', 'p', 't'], rest) := by
  rcases rest with _ | ⟨x1, _ | ⟨x2, _ | ⟨x3, _ | ⟨x4, _ | ⟨x5, r⟩⟩⟩⟩⟩ <;> rfl

/-- The quoted `sourceFragments` key parses to its characters. -/
theorem psb_key_sourceFragments (rest : List Char) :
    parseStringBody ('s' :: 'o' :: 'u' :: 'r' :: 'c' :: 'e' :: 'F' :: 'r' :: 'a' :: 'g'
        :: 'm' :: 'e' :: 'n' :: 't' :: 's' :: '"' :: rest)
      = some (['s', 'o', 'u', 'r', 'c', 'e', 'F', 'r', 'a', 'g', 'm', 'e', 'n', 't', 's'],
          rest) := by
  rcases rest with _ | ⟨x1, _ | ⟨x2, _ | ⟨x3, _ | ⟨x4, _ | ⟨x5, r⟩⟩⟩⟩⟩ <;> rfl

/-- Value-parser step: a quoted string value. -/
theorem pv_str_step (fuel : Nat) (y : List Char) :
    parseValue (fuel + 1) ('"' :: y) =
      (parseStringBody y).map (fun p => (Json.str (String.mk p.1), p.2)) := rfl

/-- Value-parser step: the `null` literal. -/
theorem pv_null_step (fuel : Nat) (rest : List Char) :
    parseValue (fuel + 1) ('n' :: 'u' :: 'l' :: 'l' :: rest) = some (Json.null, rest) := rfl

/-- Value-parser step: an empty array. -/
theorem pv_arr_empty (fuel : Nat) (rest : List Char) :
    parseValue (fuel + 1) ('[' :: ']' :: rest) = some (Json.arr [], rest) := rfl

/-- Value-parser step: an array whose first element is an object. -/
theorem pv_arr_frag (fuel : Nat) (z : List Char) :
    parseValue (fuel + 1) ('[' :: '\x7b' :: z) =
      (parseCommaSep (parseValue fuel) fuel ('\x7b' :: z)).map
        (fun p => (Json.arr p.1, p.2)) := rfl

/-- Value-parser step: an object whose first member key follows. -/
theorem pv_obj_members (fuel : Nat) (z : List Char) :
    parseValue (fuel + 1) ('\x7b' :: '"' :: z) =
      (parseMembersSep (parseValue fuel) fuel ('"' :: z)).map
        (fun p => (Json.obj p.1, p.2)) := rfl

/-- A stringified string value parses back to the string. -/
theorem parseValue_str (fuel : Nat) (s : String) (rest : List Char) :
    parseValue (fuel + 1) (encodeJsonStringLit s ++ rest) = some (Json.str s, rest) := by
  have henc : encodeJsonStringLit s ++ rest
      = '"' :: (s.data.flatMap jsonEscapeChar ++ '"' :: rest) := by
    simp [encodeJsonStringLit]
  rw [henc, pv_str_step, parseStringBody_enc]
  rfl

/-- The encoded fragment in cons-normal form. -/
theorem encodeFragmentJson_cons (f : SourceFragment) (rest : List Char) :
    encodeFragmentJson f ++ rest = '\x7b' :: '"' :: 't' :: 'i' :: 't' :: 'l' :: 'e' :: '"' :: ':'
      :: (encodeJsonStringLit f.title
        ++ ',' :: '"' :: 'u' :: 'r' :: 'l' :: '"' :: ':'
        :: ((match f.url with
            | some u => encodeJsonStringLit u
            | none => "null".data)
          ++ ',' :: '"' :: 'e' :: 'x' :: 'c' :: 'e' :: 'r' :: 'p' :: 't' :: '"' :: ':'
          :: (encodeJsonStringLit f.excerpt ++ '\x7d' :: rest))) := by
  simp only [encodeFragmentJson,
    show ("\"title\":" : String).data = '"' :: 't' :: 'i' :: 't' :: 'l' :: 'e' :: '"' :: ':' :: []
      from rfl,
    show (",\"url\":" : String).data = ',' :: '"' :: 'u' :: 'r' :: 'l' :: '"' :: ':' :: []
      from rfl,
    show (",\"excerpt\":" : String).data
        = ',' :: '"' :: 'e' :: 'x' :: 'c' :: 'e' :: 'r' :: 'p' :: 't' :: '"' :: ':' :: []
      from rfl]
  simp [List.cons_append, List.append_assoc]

/-- Member-list step: once the key string is parsed, the member
continuation is exposed. -/
theorem pms_after_key (pv : List Char → Option (Json × List Char)) (fuel : Nat)
    (z k rKey : List Char) (hk : parseStringBody z = some (k, rKey)) :
    parseMembersSep pv (fuel + 1) ('"' :: z) =
      match skipWs rKey with
      | ':' :: r2 => (do
          let (v, r3) ← pv (skipWs r2)
          match skipWs r3 with
          | ',' :: r4 =>
            (parseMembersSep pv fuel r4).map (fun p => ((String.mk k, v) :: p.1, p.2))
          | '\x7d' :: r4 => some ([(String.mk k, v)], r4)
          | _ => none)
      | _ => none := by
  show Option.bind (parseStringBody z) _ = _
  rw [hk]
  rfl

/-- Member-list step: after key and value both parse, only the
separator dispatch remains. -/
theorem pms_after_val (pv : List Char → Option (Json × List Char)) (fuel : Nat)
    (z k r2 : List Char) (v : Json) (r3 : List Char)
    (hk : parseStringBody z = some (k, ':' :: r2))
    (hv : pv (skipWs r2) = some (v, r3)) :
    parseMembersSep pv (fuel + 1) ('"' :: z) =
      match skipWs r3 with
      | ',' :: r4 =>
        (parseMembersSep pv fuel r4).map (fun p => ((String.mk k, v) :: p.1, p.2))
      | '\x7d' :: r4 => some ([(String.mk k, v)], r4)
      | _ => none := by
  rw [pms_after_key pv fuel z k (':' :: r2) hk]
  show Option.bind (pv (skipWs r2)) _ = _
  rw [hv]
  rfl

/-- Element-list step: after one element value parses, only the
separator dispatch remains. -/
theorem pcs_after_val (pv : List Char → Option (Json × List Char)) (fuel : Nat)
    (cs : List Char) (v : Json) (r : List Char)
    (hv : pv (skipWs cs) = some (v, r)) :
    parseCommaSep pv (fuel + 1) cs =
      match skipWs r with
      | ',' :: r2 => (parseCommaSep pv fuel r2).map (fun p => (v :: p.1, p.2))
      | ']' :: r2 => some ([v], r2)
      | _ => none := by
  show Option.bind (pv (skipWs cs)) _ = _
  rw [hv]
  rfl

/-- The three members of an encoded fragment object parse back to the
corresponding member list; the url member's encoding is abstracted by
its parse behaviour so both the string and `null` cases instantiate
it. -/
theorem parseMembersSep_frag (k m : Nat) (title excerpt : String)
    (uenc : List Char) (uval : Json) (rest : List Char)
    (hws : ∀ X : List Char, skipWs (uenc ++ X) = uenc ++ X)
    (hu : ∀ X : List Char, parseValue (k + 1) (uenc ++ X) = some (uval, X)) :
    parseMembersSep (parseValue (k + 1)) (m + 1 + 1 + 1)
      ('"' :: 't' :: 'i' :: 't' :: 'l' :: 'e' :: '"' :: ':'
        :: (encodeJsonStringLit title
          ++ ',' :: '"' :: 'u' :: 'r' :: 'l' :: '"' :: ':'
          :: (uenc
            ++ ',' :: '"' :: 'e' :: 'x' :: 'c' :: 'e' :: 'r' :: 'p' :: 't' :: '"' :: ':'
            :: (encodeJsonStringLit excerpt ++ '\x7d' :: rest))))
      = some ([("title", Json.str title), ("url", uval), ("excerpt", Json.str excerpt)],
          rest) := by
  have hv1 : parseValue (k + 1)
      (skipWs (encodeJsonStringLit title
        ++ ',' :: '"' :: 'u' :: 'r' :: 'l' :: '"' :: ':'
        :: (uenc
          ++ ',' :: '"' :: 'e' :: 'x' :: 'c' :: 'e' :: 'r' :: 'p' :: 't' :: '"' :: ':'
          :: (encodeJsonStringLit excerpt ++ '\x7d' :: rest))))
      = some (Json.str title,
          ',' :: '"' :: 'u' :: 'r' :: 'l' :: '"' :: ':'
          :: (uenc
            ++ ',' :: '"' :: 'e' :: 'x' :: 'c' :: 'e' :: 'r' :: 'p' :: 't' :: '"' :: ':'
            :: (encodeJsonStringLit excerpt ++ '\x7d' :: rest))) :=
    parseValue_str k title _
  rw [pms_after_val (parseValue (k + 1)) (m + 1 + 1) _ _ _ _ _ (psb_key_title _) hv1]
  show Option.map _ (parseMembersSep (parseValue (k + 1)) (m + 1 + 1)
      ('"' :: 'u' :: 'r' :: 'l' :: '"' :: ':'
        :: (uenc
          ++ ',' :: '"' :: 'e' :: 'x' :: 'c' :: 'e' :: 'r' :: 'p' :: 't' :: '"' :: ':'
          :: (encodeJsonStringLit excerpt ++ '\x7d' :: rest)))) = _
  have hv2 : parseValue (k + 1)
      (skipWs (uenc
        ++ ',' :: '"' :: 'e' :: 'x' :: 'c' :: 'e' :: 'r' :: 'p' :: 't' :: '"' :: ':'
        :: (encodeJsonStringLit excerpt ++ '\x7d' :: rest)))
      = some (uval,
          ',' :: '"' :: 'e' :: 'x' :: 'c' :: 'e' :: 'r' :: 'p' :: 't' :: '"' :: ':'
          :: (encodeJsonStringLit excerpt ++ '\x7d' :: rest)) := by
    rw [hws]
    exact hu _
  rw [pms_after_val (parseValue (k + 1)) (m + 1) _ _ _ _ _ (psb_key_url _) hv2]
  show Option.map _ (Option.map _ (parseMembersSep (parseValue (k + 1)) (m + 1)
      ('"' :: 'e' :: 'x' :: 'c' :: 'e' :: 'r' :: 'p' :: 't' :: '"' :: ':'
        :: (encodeJsonStringLit excerpt ++ '\x7d' :: rest)))) = _
  have hv3 : parseValue (k + 1) (skipWs (encodeJsonStringLit excerpt ++ '\x7d' :: rest))
      = some (Json.str excerpt, '\x7d' :: rest) :=
    parseValue_str k excerpt _
  rw [pms_after_val (parseValue (k + 1)) m _ _ _ _ _ (psb_key_excerpt _) hv3]
  rfl

/-- A `JSON.stringify`d source fragment parses back to its denoted
JSON object value. -/
theorem parseValue_frag (m : Nat) (f : SourceFragment) (rest : List Char) :
    parseValue (m + 1 + 1 + 1 + 1) (encodeFragmentJson f ++ rest)
      = some (fragJson f, rest) := by
  rcases f with ⟨title, url, excerpt⟩
  rcases url with _ | u
  · rw [encodeFragmentJson_cons]
    dsimp only
    rw [pv_obj_members]
    rw [parseMembersSep_frag (m + 1 + 1) m title excerpt "null".data Json.null rest
      (fun X => rfl) (fun X => pv_null_step (m + 1 + 1) X)]
    rfl
  · rw [encodeFragmentJson_cons]
    dsimp only
    rw [pv_obj_members]
    rw [parseMembersSep_frag (m + 1 + 1) m title excerpt (encodeJsonStringLit u)
      (Json.str u) rest (fun X => rfl) (fun X => parseValue_str (m + 1 + 1) u X)]
    rfl

/-- A comma-joined nonempty fragment list followed by the closing
bracket parses back to the denoted JSON values, given enough fuel. -/
theorem parseCommaSep_frags (m : Nat) (fs : List SourceFragment) (fuelC : Nat)
    (rest : List Char) (hlen : fs.length ≤ fuelC) (hne : fs ≠ []) :
    parseCommaSep (parseValue (m + 1 + 1 + 1 + 1)) fuelC
      (encodeFragListInner fs ++ ']' :: rest)
      = some (fs.map fragJson, rest) := by
  induction fs generalizing fuelC rest with
  | nil => exact absurd rfl hne
  | cons f fs ih =>
    obtain ⟨fc, rfl⟩ : ∃ fc, fuelC = fc + 1 := by
      cases fuelC with
      | zero => simp at hlen
      | succ fc => exact ⟨fc, rfl⟩
    cases fs with
    | nil =>
      have hv : parseValue (m + 1 + 1 + 1 + 1)
          (skipWs (encodeFragListInner [f] ++ ']' :: rest))
          = some (fragJson f, ']' :: rest) := parseValue_frag m f (']' :: rest)
      rw [pcs_after_val _ fc _ _ _ hv]
      rfl
    | cons g gs =>
      have hshape : encodeFragListInner (f :: g :: gs) ++ ']' :: rest
          = encodeFragmentJson f
            ++ (',' :: (encodeFragListInner (g :: gs) ++ ']' :: rest)) := by
        rw [show encodeFragListInner (f :: g :: gs)
            = encodeFragmentJson f ++ ',' :: encodeFragListInner (g :: gs) from rfl,
          List.append_assoc, List.cons_append]
      rw [hshape]
      have hv : parseValue (m + 1 + 1 + 1 + 1)
          (skipWs (encodeFragmentJson f
            ++ (',' :: (encodeFragListInner (g :: gs) ++ ']' :: rest))))
          = some (fragJson f, ',' :: (encodeFragListInner (g :: gs) ++ ']' :: rest)) :=
        parseValue_frag m f _
      rw [pcs_after_val _ fc _ _ _ hv]
      show Option.map _ (parseCommaSep (parseValue (m + 1 + 1 + 1 + 1)) fc
          (encodeFragListInner (g :: gs) ++ ']' :: rest)) = _
      rw [ih fc rest (by simp only [List.length_cons] at hlen ⊢; omega)
        (List.cons_ne_nil g gs)]
      rfl

/-- A `JSON.stringify`d nonempty fragment array parses back to the
denoted JSON array value, given enough fuel. -/
theorem parseValue_frags_arr (m : Nat) (fs : List SourceFragment) (rest : List Char)
    (hne : fs ≠ []) (hlen : fs.length ≤ m + 1 + 1 + 1 + 1) :
    parseValue (m + 1 + 1 + 1 + 1 + 1) ('[' :: (encodeFragListInner fs ++ ']' :: rest))
      = some (Json.arr (fs.map fragJson), rest) := by
  cases fs with
  | nil => exact absurd rfl hne
  | cons f fs =>
    obtain ⟨z, hz⟩ : ∃ z, encodeFragListInner (f :: fs) ++ ']' :: rest = '\x7b' :: z := by
      cases fs with
      | nil => exact ⟨_, encodeFragmentJson_cons f (']' :: rest)⟩
      | cons g gs =>
        have h1 : encodeFragListInner (f :: g :: gs) ++ ']' :: rest
            = encodeFragmentJson f
              ++ (',' :: (encodeFragListInner (g :: gs) ++ ']' :: rest)) := by
          rw [show encodeFragListInner (f :: g :: gs)
              = encodeFragmentJson f ++ ',' :: encodeFragListInner (g :: gs) from rfl,
            List.append_assoc, List.cons_append]
        exact ⟨_, h1.trans (encodeFragmentJson_cons f _)⟩
    rw [hz, pv_arr_frag, ← hz]
    rw [parseCommaSep_frags m (f :: fs) (m + 1 + 1 + 1 + 1) rest hlen
      (List.cons_ne_nil f fs)]
    rfl

/-- Each encoded fragment contributes at least one character, so the
joined encoding is at least as long as the fragment list. -/
theorem encodeFragListInner_length_ge (fs : List SourceFragment) :
    fs.length ≤ (encodeFragListInner fs).length := by
  induction fs with
  | nil => simp [encodeFragListInner]
  | cons f fs ih =>
    have h1 : 1 ≤ (encodeFragmentJson f).length := by
      simp [encodeFragmentJson]
    cases fs with
    | nil => simpa [encodeFragListInner] using h1
    | cons g gs =>
      rw [show encodeFragListInner (f :: g :: gs)
          = encodeFragmentJson f ++ ',' :: encodeFragListInner (g :: gs) from rfl]
      simp only [List.length_append, List.length_cons] at *
      omega

/-- `JSON.parse` recovers the denoted payload value from the streamed
metadata JSON text. -/
theorem jsonParse_payload (fs : List SourceFragment) :
    jsonParse (String.mk (metadataJson fs)) = some (payloadJson fs) := by
  cases fs with
  | nil => rfl
  | cons f fs' =>
    have hinner : (f :: fs').length ≤ (encodeFragListInner (f :: fs')).length :=
      encodeFragListInner_length_ge _
    have hLlen : (metadataJson (f :: fs')).length
        = (encodeFragListInner (f :: fs')).length + 22 := by
      simp [metadataJson, encodeFragmentsJson,
        show ("\"sourceFragments\":" : String).data.length = 18 from rfl]
    have hsm : (String.mk (metadataJson (f :: fs'))).length
        = (metadataJson (f :: fs')).length := rfl
    obtain ⟨m', hm5, hmfs⟩ : ∃ m',
        (String.mk (metadataJson (f :: fs'))).length = m' + 1 + 1 + 1 + 1 + 1
          ∧ (f :: fs').length ≤ m' + 1 + 1 + 1 + 1 := by
      refine ⟨(metadataJson (f :: fs')).length - 5, ?_, ?_⟩ <;>
        simp only [List.length_cons] at * <;> omega
    have hcons : metadataJson (f :: fs')
        = '\x7b' :: '"' :: 's' :: 'o' :: 'u' :: 'r' :: 'c' :: 'e' :: 'F' :: 'r' :: 'a'
          :: 'g' :: 'm' :: 'e' :: 'n' :: 't' :: 's' :: '"' :: ':'
          :: ('[' :: (encodeFragListInner (f :: fs') ++ ']' :: ['\x7d'])) := by
      simp [metadataJson, encodeFragmentsJson,
        show ("\"sourceFragments\":" : String).data
          = '"' :: 's' :: 'o' :: 'u' :: 'r' :: 'c' :: 'e' :: 'F' :: 'r' :: 'a' :: 'g'
            :: 'm' :: 'e' :: 'n' :: 't' :: 's' :: '"' :: ':' :: [] from rfl,
        List.append_assoc]
    have hparse : parseValue ((String.mk (metadataJson (f :: fs'))).length + 1)
        (metadataJson (f :: fs')) = some (payloadJson (f :: fs'), []) := by
      rw [hm5, hcons, pv_obj_members]
      have harr : parseValue (m' + 1 + 1 + 1 + 1 + 1)
          (skipWs ('[' :: (encodeFragListInner (f :: fs') ++ ']' :: ['\x7d'])))
          = some (Json.arr ((f :: fs').map fragJson), ['\x7d']) :=
        parseValue_frags_arr m' (f :: fs') ['\x7d'] (List.cons_ne_nil f fs') hmfs
      rw [pms_after_val (parseValue (m' + 1 + 1 + 1 + 1 + 1)) (m' + 1 + 1 + 1 + 1)
        _ _ _ _ _ (psb_key_sourceFragments _) harr]
      rfl
    have hdata : (String.mk (metadataJson (f :: fs'))).data = metadataJson (f :: fs') := rfl
    simp only [jsonParse, hdata, hparse]
    rfl

/-- The client's fragment normalization maps a round-tripped fragment
JSON value to the canonicalized fragment. -/
theorem clientNormalizeFragment_fragJson (f : SourceFragment) :
    clientNormalizeFragment (fragJson f) = some (clientRoundTripFragment f) := by
  rcases f with ⟨title, url, excerpt⟩
  rcases url with _ | u <;> rfl

/-- Filtering the decoded fragment array through the client's
normalization keeps every fragment, canonicalized. -/
theorem filterMap_clientNormalize (fs : List SourceFragment) :
    (fs.map fragJson).filterMap clientNormalizeFragment
      = fs.map clientRoundTripFragment := by
  induction fs with
  | nil => rfl
  | cons f fs ih =>
    simp only [List.map_cons, List.filterMap_cons, clientNormalizeFragment_fragJson, ih]

/-- Mapping preserves emptiness of the fragment list. -/
theorem isEmpty_map_rt (fs : List SourceFragment) :
    (fs.map clientRoundTripFragment).isEmpty = fs.isEmpty := by
  cases fs <;> rfl

/-- A map that fixes every member is the identity. -/
theorem map_id_of_mem {α : Type} (g : α → α) :
    ∀ (l : List α), (∀ x ∈ l, g x = x) → l.map g = l := by
  intro l
  induction l with
  | nil => intro _; rfl
  | cons a t ih =>
    intro h
    rw [List.map_cons, h a (by simp), ih (fun x hx => h x (by simp [hx]))]

/-- The stream decomposed after the visible text, for visible text
without stray line terminators. -/
theorem encodeAssistantStream_shape (visible : List Char) (fs : List SourceFragment)
    (h : ∀ c ∈ visible, c = '\n' ∨ jsDotChar c = true) :
    encodeAssistantStream visible fs
      = visible ++ '\n' :: '\n'
        :: (RAG_CONTEXT_START ++ (metadataJson fs ++ RAG_CONTEXT_END)) := by
  simp only [encodeAssistantStream, metadataMarker, splitForStream_flatten visible h,
    show ("\n\n" : String).data = '\n' :: '\n' :: [] from rfl,
    List.append_assoc, List.cons_append, List.nil_append]

/-- C1 counterexample: the decoded pre-marker content is the visible
text with the marker's two leading newlines appended, not the visible
text itself; moreover a stray carriage return in the visible text is
dropped by the splitting regex, so even the pre-newline part can
differ from the visible text. -/
theorem claim_C1_streaming_roundtrip_counterexample :
    ((parseAssistantPayload (encodeAssistantStream "hi".data
        [⟨"T", none, "E"⟩])).content = "hi\n\n".data
      ∧ (parseAssistantPayload (encodeAssistantStream "hi".data
        [⟨"T", none, "E"⟩])).content ≠ "hi".data)
    ∧ ((parseAssistantPayload (encodeAssistantStream "a\rb".data [])).content
        = "ab\n\n".data
      ∧ (parseAssistantPayload (encodeAssistantStream "a\rb".data [])).content
        ≠ "a\rb".data ++ "\n\n".data) := by
  refine ⟨⟨rfl, by decide⟩, rfl, by decide⟩

/-- C1 (amended): streaming round-trip with the marker's leading
newlines.  For every visible answer text and fragment list, provided
the visible text does not contain the start sentinel, contains no line
terminator other than the newline itself (the splitting regex silently
drops a stray carriage return or Unicode line separator), and the
metadata JSON does not contain the end sentinel, decoding the encoded
stream yields exactly the visible text followed by the marker's two
newlines as content, and the fragments mapped through the client's
per-fragment normalization (omitted when empty) as metadata; when
every fragment is canonical under that normalization, the metadata is
exactly the original fragment list. -/
theorem claim_C1_streaming_roundtrip (visible : List Char) (fs : List SourceFragment)
    (hvis : findSubIdx RAG_CONTEXT_START visible = none)
    (hcr : '\r' ∉ visible) (hls : '\u2028' ∉ visible) (hps : '\u2029' ∉ visible)
    (hjson : findSubIdx RAG_CONTEXT_END (metadataJson fs) = none) :
    parseAssistantPayload (encodeAssistantStream visible fs)
      = ⟨visible ++ '\n' :: '\n' :: [],
          if fs.isEmpty then none else some (fs.map clientRoundTripFragment)⟩
    ∧ ((∀ f ∈ fs, clientRoundTripFragment f = f) →
        parseAssistantPayload (encodeAssistantStream visible fs)
          = ⟨visible ++ '\n' :: '\n' :: [],
              if fs.isEmpty then none else some fs⟩) := by
  have hdot : ∀ c ∈ visible, c = '\n' ∨ jsDotChar c = true := by
    intro c hc
    by_cases hn : c = '\n'
    · exact Or.inl hn
    · right
      have h1 : c ≠ '\r' := fun e => hcr (e ▸ hc)
      have h2 : c ≠ '\u2028' := fun e => hls (e ▸ hc)
      have h3 : c ≠ '\u2029' := fun e => hps (e ▸ hc)
      simp [jsDotChar, hn, h1, h2, h3]
  have hstream := encodeAssistantStream_shape visible fs hdot
  have hsplit2 : encodeAssistantStream visible fs
      = (visible ++ ('\n' :: '\n' :: RAG_CONTEXT_START))
        ++ (metadataJson fs ++ RAG_CONTEXT_END) := by
    rw [hstream]
    simp [List.append_assoc]
  have hstart : findSubIdx RAG_CONTEXT_START (encodeAssistantStream visible fs)
      = some (visible.length + 2) := by
    rw [hstream]
    exact findSubIdx_after_newlines RAG_CONTEXT_START visible
      (metadataJson fs ++ RAG_CONTEXT_END) newline_not_mem_startSentinel
      startSentinel_ne_nil hvis
  have hafter : (encodeAssistantStream visible fs).drop
      (visible.length + 2 + RAG_CONTEXT_START.length)
      = metadataJson fs ++ RAG_CONTEXT_END := by
    rw [hsplit2]
    exact List.drop_left' (by simp only [List.length_append, List.length_cons]; omega)
  have hend : findSubIdx RAG_CONTEXT_END ((encodeAssistantStream visible fs).drop
      (visible.length + 2 + RAG_CONTEXT_START.length))
      = some (metadataJson fs).length := by
    rw [hafter]
    exact findSubIdx_self_append RAG_CONTEXT_END (metadataJson fs) endSentinel_ne_nil
      hjson endSentinel_aperiodic
  have hcontent : (encodeAssistantStream visible fs).take (visible.length + 2)
      = visible ++ '\n' :: '\n' :: [] := by
    rw [hstream,
      show visible ++ '\n' :: '\n'
          :: (RAG_CONTEXT_START ++ (metadataJson fs ++ RAG_CONTEXT_END))
        = (visible ++ ['\n', '\n'])
          ++ (RAG_CONTEXT_START ++ (metadataJson fs ++ RAG_CONTEXT_END)) from by
        simp [List.append_assoc]]
    exact List.take_left' (by simp)
  have htake : ((encodeAssistantStream visible fs).drop
      (visible.length + 2 + RAG_CONTEXT_START.length)).take (metadataJson fs).length
      = metadataJson fs := by
    rw [hafter]
    exact List.take_left' rfl
  have hjs : jsGet (Json.obj [("sourceFragments", Json.arr (fs.map fragJson))])
      "sourceFragments" = some (Json.arr (fs.map fragJson)) := rfl
  have hmain : parseAssistantPayload (encodeAssistantStream visible fs)
      = ⟨visible ++ '\n' :: '\n' :: [],
          if fs.isEmpty then none else some (fs.map clientRoundTripFragment)⟩ := by
    simp only [parseAssistantPayload, hstart, hend, hcontent, htake, jsonParse_payload,
      payloadJson, hjs, filterMap_clientNormalize, isEmpty_map_rt]
  refine ⟨hmain, fun hid => ?_⟩
  rw [hmain, map_id_of_mem clientRoundTripFragment fs hid]

/-- C1 witness: at a concrete visible text and fragment, the
hypotheses hold and decoding reconstructs the fragment exactly. -/
theorem claim_C1_streaming_roundtrip_witness :
    findSubIdx RAG_CONTEXT_START "hi\nthere".data = none
      ∧ findSubIdx RAG_CONTEXT_END (metadataJson [⟨"T", some "u", "E"⟩]) = none
      ∧ parseAssistantPayload (encodeAssistantStream "hi\nthere".data
          [⟨"T", some "u", "E"⟩])
        = ⟨"hi\nthere\n\n".data, some [⟨"T", some "u", "E"⟩]⟩ := by
  refine ⟨by decide, by decide, ?_⟩
  have h := (claim_C1_streaming_roundtrip "hi\nthere".data [⟨"T", some "u", "E"⟩]
    (by decide) (by decide) (by decide) (by decide) (by decide)).2 (by decide)
  exact h.trans rfl
